import Mathlib

/-!
# git-ai-commit — shallow embedding and verification

A shallow embedding of the core logic of the `git-ai-commit` tool
(`src/main.go`) in Lean 4, together with theorems settling the frozen
claims about its specification.

Strings are modelled as `List Char`; each `Char` stands for one byte of the
Go string (all inputs considered here are ASCII, and the Go code performs
byte-level operations).  Go standard-library helpers used by the tool
(`strings.TrimSpace`, `strings.Split`, `path.Clean`, `path.Join`,
`net/url.Parse`, `url.URL.String`) are embedded following their documented
semantics; the URL layer is embedded for the ASCII fragment without
percent-encoding, IPv6 hosts or userinfo — inputs outside that fragment make
the embedded parser return `none` (Go would accept some of them), so every
theorem quantifying over parsed URLs ranges over this modelled fragment.
-/

set_option autoImplicit false

abbrev Str := List Char

/-- ASCII whitespace, the ASCII part of Go's `unicode.IsSpace`
(used by `strings.TrimSpace`). -/
def isSpaceCh (c : Char) : Bool :=
  c = ' ' || c = '\t' || c = '\n' || c = '\x0b' || c = '\x0c' || c = '\r'

def isUpperCh (c : Char) : Bool := 'A' ≤ c && c ≤ 'Z'

def isLowerCh (c : Char) : Bool := 'a' ≤ c && c ≤ 'z'

def isAlphaCh (c : Char) : Bool := isLowerCh c || isUpperCh c

def isDigitCh (c : Char) : Bool := '0' ≤ c && c ≤ '9'

/-- ASCII lower-casing of one character (`strings.ToLower` restricted to
ASCII; URL schemes are validated to be ASCII letters and digits). -/
def lowerCh (c : Char) : Char :=
  if isUpperCh c then Char.ofNat (c.toNat + 32) else c

/-- `strings.HasPrefix l p`. -/
def hasPrefixL (l p : Str) : Bool := p.isPrefixOf l

/-- `strings.HasSuffix l s`. -/
def hasSuffixL (l s : Str) : Bool := s.isSuffixOf l

/-- `strings.TrimPrefix l p`. -/
def trimPrefixL (l p : Str) : Str :=
  if p.isPrefixOf l then l.drop p.length else l

/-- `strings.TrimSuffix l s`. -/
def trimSuffixL (l s : Str) : Str :=
  if s.isSuffixOf l then l.take (l.length - s.length) else l

/-- `strings.TrimSpace` (ASCII whitespace). -/
def trimSpaceL (l : Str) : Str :=
  ((l.dropWhile isSpaceCh).reverse.dropWhile isSpaceCh).reverse

/-- `strings.Split s (String.singleton sep)`: split on every occurrence of a
one-character separator; `strings.Split "" sep = [""]`. -/
def splitOnCh (sep : Char) : Str → List Str
  | [] => [[]]
  | c :: rest =>
    if c = sep then [] :: splitOnCh sep rest
    else
      match splitOnCh sep rest with
      | [] => [[c]]
      | s :: ss => (c :: s) :: ss

/-- `strings.ReplaceAll s "\r\n" "\n"` (left-to-right, non-overlapping). -/
def replaceCRLF : Str → Str
  | '\r' :: '\n' :: rest => '\n' :: replaceCRLF rest
  | c :: rest => c :: replaceCRLF rest
  | [] => []

/-- The Go `net/url` internal `split(s, sep, true)`: cut at the first
occurrence of `sep`, dropping the separator; `(s, "")` if absent. -/
def cutListDrop (sep : Char) : Str → Str × Str
  | [] => ([], [])
  | c :: rest =>
    if c = sep then ([], rest)
    else
      let p := cutListDrop sep rest
      (c :: p.1, p.2)

/-- The Go `net/url` internal `split(s, sep, false)`: cut at the first
occurrence of `sep`, keeping the separator on the right part. -/
def cutListKeep (sep : Char) : Str → Str × Str
  | [] => ([], [])
  | c :: rest =>
    if c = sep then ([], c :: rest)
    else
      let p := cutListKeep sep rest
      (c :: p.1, p.2)

/-!
## `path.Clean` and `path.Join`

Go's `path.Clean` applies lexical processing, Plan-9 style, to a
slash-separated path: it iteratively removes empty segments and `.`
segments, resolves a `..` against the preceding segment, drops a `..` that
would climb above the root of a rooted path, and keeps leading `..`s of an
unrooted path.  We embed it as a fold over the segment list with an explicit
segment stack (held in reverse), which implements exactly these rules.
-/

def dotSeg : Str := ['.']

def dotdotSeg : Str := ['.', '.']

def cleanStep (rooted : Bool) (stack : List Str) (seg : Str) : List Str :=
  if seg = [] then stack
  else if seg = dotSeg then stack
  else if seg = dotdotSeg then
    match stack with
    | [] => if rooted then [] else [dotdotSeg]
    | top :: rest => if top = dotdotSeg then dotdotSeg :: top :: rest else rest
  else seg :: stack

/-- Segments of the cleaned path, in order. -/
def cleanSegs (rooted : Bool) (l : Str) : List Str :=
  ((splitOnCh '/' l).foldl (cleanStep rooted) []).reverse

/-- Interleave segments with `/` (`strings.Join ss "/"`). -/
def joinSep : List Str → Str
  | [] => []
  | [s] => s
  | s :: ss => s ++ '/' :: joinSep ss

/-- Go `path.Clean`. -/
def pathClean (l : Str) : Str :=
  if l = [] then dotSeg
  else
    let rooted := l.head? = some '/'
    let ss := cleanSegs rooted l
    if rooted then '/' :: joinSep ss
    else if ss = [] then dotSeg
    else joinSep ss

/-- Go `path.Join`: concatenate the elements, inserting `/` after a
non-empty accumulator, then `Clean`; all-empty input gives `""`. -/
def joinBuf (elems : List Str) : Str :=
  elems.foldl (fun buf e => if buf = [] then e else buf ++ '/' :: e) []

def pathJoin (elems : List Str) : Str :=
  let buf := joinBuf elems
  if buf = [] then [] else pathClean buf

example : pathClean "/a/b/../c".data = "/a/c".data := by decide
example : pathClean "//v1".data = "/v1".data := by decide
example : pathClean "v1/chat/completions".data = "v1/chat/completions".data := by decide
example : pathClean "/..".data = "/".data := by decide
example : pathClean "".data = ".".data := by decide
example : pathClean "a/../..".data = "..".data := by decide
example : pathJoin ["".data, "v1".data] = "v1".data := by decide
example : pathJoin ["/".data, "v1".data] = "/v1".data := by decide
example : trimSuffixL "/v1/chat/completions".data "/chat/completions".data = "/v1".data := by
  decide

/-!
## `net/url` — the modelled ASCII fragment

`GoURL` mirrors the fields of `url.URL` that the tool's code can reach
(`User` is always absent in the modelled fragment, and `RawPath`/
`RawFragment` are always empty because the fragment excludes
percent-encoding, making escaping the identity on accepted components).
-/

structure GoURL where
  scheme : Str := []
  opq : Str := []
  host : Str := []
  omitHost : Bool := false
  path : Str := []
  forceQuery : Bool := false
  rawQuery : Str := []
  frag : Str := []
  deriving Repr, DecidableEq

/-- Control bytes rejected by `url.parse` (`stringContainsCTLByte`). -/
def ctlCh (c : Char) : Bool := c.toNat < 0x20 || c.toNat = 0x7f

/-- Path characters on which Go's `encodePath` escaping is the identity
(so that `setPath` stores them verbatim and `String` reprints them
verbatim): alphanumerics plus `-_.~$&+,/:;=@`.  Other bytes are accepted by
Go but percent-escaped on output; they are outside the modelled fragment. -/
def pathSafeCh (c : Char) : Bool :=
  isAlphaCh c || isDigitCh c ||
    ['-', '_', '.', '~', '$', '&', '+', ',', '/', ':', ';', '=', '@'].contains c

/-- Fragment characters printed verbatim by `EscapedFragment`. -/
def fragSafeCh (c : Char) : Bool :=
  pathSafeCh c || ['?', '!', '(', ')', '*'].contains c

/-- Host (reg-name and optional `:port`) characters in the modelled
fragment: alphanumerics plus `-._~:` (IPv6 brackets, userinfo and
percent-encoding are outside the fragment). -/
def hostCh (c : Char) : Bool :=
  isAlphaCh c || isDigitCh c || ['-', '.', '_', '~', ':'].contains c

/-- `url.getScheme`: returns `some (scheme, rest)`; the scheme is empty when
the input has none; `none` is the `missing protocol scheme` error (a `:` as
the very first character). -/
def getSchemeAux (orig : Str) : Str → Str → Option (Str × Str)
  | _, [] => some ([], orig)
  | acc, c :: rest =>
    if isAlphaCh c then getSchemeAux orig (acc ++ [c]) rest
    else if isDigitCh c || c = '+' || c = '-' || c = '.' then
      if acc = [] then some ([], orig) else getSchemeAux orig (acc ++ [c]) rest
    else if c = ':' then
      if acc = [] then none else some (acc, rest)
    else some ([], orig)

def getScheme (s : Str) : Option (Str × Str) := getSchemeAux s [] s

/-- The suffix of `h` after the last `:` (empty when `h` has no `:`;
`h` itself never ends up here since the caller checks `contains`). -/
def afterLastColon (h : Str) : Str :=
  (h.reverse.takeWhile (fun c => c ≠ ':')).reverse

/-- `url.parseHost` on the modelled fragment: validates the characters and,
when a `:` is present, that everything after the last `:` is digits
(`validOptionalPort`). -/
def parseHostM (h : Str) : Option Str :=
  if h.any (fun c => !hostCh c) then none
  else if h.contains ':' then
    if (afterLastColon h).all isDigitCh then some h else none
  else some h

/-- `url.parseAuthority`: userinfo (`@`) is outside the modelled fragment. -/
def parseAuthorityM (authority : Str) : Option Str :=
  if authority.contains '@' then none else parseHostM authority

/-- `url.URL.setPath` on the modelled fragment: the path is stored verbatim
(escaping is the identity on `pathSafeCh` characters); other characters are
outside the fragment. -/
def setPathM (u : GoURL) (p : Str) : Option GoURL :=
  if p.all pathSafeCh then some { u with path := p } else none

/-- The `ForceQuery`/`RawQuery` splitting step of `url.parse`: a trailing
`?` with no other `?` sets `ForceQuery`; otherwise cut at the first `?`.
Returns (rest, rawQuery, forceQuery). -/
def querySplit (rest0 : Str) : Str × Str × Bool :=
  if hasSuffixL rest0 ['?'] && !((trimSuffixL rest0 ['?']).contains '?') then
    (trimSuffixL rest0 ['?'], ([] : Str), true)
  else
    ((cutListDrop '?' rest0).1, (cutListDrop '?' rest0).2, false)

/-- `url.parse(s, false)` (everything before the fragment). -/
def parseInner (s : Str) : Option GoURL :=
  if s.any ctlCh then none
  else if s = ['*'] then some { path := ['*'] }
  else
    match getScheme s with
    | none => none
    | some (sch0, rest0) =>
      let scheme := sch0.map lowerCh
      let rest1 := (querySplit rest0).1
      let rawQuery := (querySplit rest0).2.1
      let forceQuery := (querySplit rest0).2.2
      if !hasPrefixL rest1 ['/'] && scheme ≠ [] then
        some { scheme := scheme, opq := rest1, rawQuery := rawQuery, forceQuery := forceQuery }
      else if !hasPrefixL rest1 ['/'] && ((cutListDrop '/' rest1).1).contains ':' then
        none
      else if (scheme ≠ [] || !hasPrefixL rest1 ['/', '/', '/']) && hasPrefixL rest1 ['/', '/'] then
        let p := cutListKeep '/' (rest1.drop 2)
        match parseAuthorityM p.1 with
        | none => none
        | some host =>
          setPathM { scheme := scheme, host := host,
                     rawQuery := rawQuery, forceQuery := forceQuery } p.2
      else if scheme ≠ [] && hasPrefixL rest1 ['/'] then
        setPathM { scheme := scheme, omitHost := true,
                   rawQuery := rawQuery, forceQuery := forceQuery } rest1
      else
        setPathM { scheme := scheme, rawQuery := rawQuery, forceQuery := forceQuery } rest1

/-- `url.Parse`: cut the fragment at the first `#`, parse the rest, then
attach the fragment (verbatim on the modelled fragment charset). -/
def parseURL (raw : Str) : Option GoURL :=
  let p := cutListDrop '#' raw
  match parseInner p.1 with
  | none => none
  | some u =>
    if p.2 = [] then some u
    else if p.2.all fragSafeCh then some { u with frag := p.2 } else none

/-- `url.URL.String` on the modelled fragment (escaping is the identity). -/
def urlString (u : GoURL) : Str :=
  let s1 : Str := if u.scheme ≠ [] then u.scheme ++ [':'] else []
  let core : Str :=
    if u.opq ≠ [] then u.opq
    else
      let auth : Str :=
        if u.scheme ≠ [] || u.host ≠ [] then
          if u.omitHost && u.host = [] then []
          else if u.host ≠ [] || u.path ≠ [] then '/' :: '/' :: u.host
          else []
        else []
      let p1 := if u.path ≠ [] && u.path.head? ≠ some '/' && u.host ≠ [] then '/' :: u.path
                else u.path
      let p2 := if s1 = [] && auth = [] && ((cutListDrop '/' u.path).1).contains ':' then
                  '.' :: '/' :: p1
                else p1
      auth ++ p2
  s1 ++ core ++ (if u.forceQuery || u.rawQuery ≠ [] then '?' :: u.rawQuery else []) ++
    (if u.frag ≠ [] then '#' :: u.frag else [])

/-!
## `ResolveChatCompletionsEndpoint` (src/main.go:937)
-/

def chatCompletionsSfx : Str := "/chat/completions".data

def slashV1 : Str := "/v1".data

/-- The path pipeline of `ResolveChatCompletionsEndpoint`: clean, strip an
existing `/chat/completions` suffix, ensure a `/v1` final segment, append
`chat/completions`. -/
def resolvePath (p : Str) : Str :=
  let c1 := pathClean ('/' :: trimPrefixL p ['/'])
  let c2 := trimSuffixL c1 chatCompletionsSfx
  let c3 := if hasSuffixL c2 slashV1 then c2 else pathJoin [c2, "v1".data]
  pathJoin [c3, "chat".data, "completions".data]

def ResolveChatCompletionsEndpoint (raw : Str) : Option Str :=
  if raw = [] then some []
  else
    match parseURL raw with
    | none => none
    | some u => some (urlString { u with path := resolvePath u.path, rawQuery := [] })

example :
    ResolveChatCompletionsEndpoint "https://api.openai.com".data =
      some "https://api.openai.com/v1/chat/completions".data := by decide
example :
    ResolveChatCompletionsEndpoint "https://api.openai.com/v1/".data =
      some "https://api.openai.com/v1/chat/completions".data := by decide
example :
    ResolveChatCompletionsEndpoint "/chat/completions".data =
      some "v1/chat/completions".data := by decide
example :
    ResolveChatCompletionsEndpoint "v1/chat/completions".data =
      some "/v1/chat/completions".data := by decide
example :
    ResolveChatCompletionsEndpoint "https://api.openai.com/v1?key=abc".data =
      some "https://api.openai.com/v1/chat/completions".data := by decide

/-- The canonical rendering of an authority-form URL after normalization:
scheme part, `//host`, a rooted path, an optional bare `?` (`ForceQuery`)
and an optional fragment.  `urlString` produces exactly this shape on the
records `ResolveChatCompletionsEndpoint` builds. -/
def canonS (sch host p1tail frag : Str) (fq : Bool) : Str :=
  ((if sch = [] then [] else sch ++ [':']) ++
    '/' :: '/' :: (host ++ '/' :: (p1tail ++ (if fq then ['?'] else [])))) ++
    (if frag ≠ [] then '#' :: frag else [])

/-!
## `resolveAPIKey` (src/main.go:665)

`os.Getenv` is modelled as a function `env : Str → Str` returning `""` for
unset variables, exactly as in Go.  The `git credential fill` subprocess of
the `git-credentials` form is modelled as an abstract lookup
`cred : Str → Except KeyErr Str` taking the endpoint, since
`resolveAPIKeyFromGitCredentials` only shells out.
-/

inductive KeyErr where
  | emptyVarName
  | missingEnv (name : Str)
  | credentialErr (e : Str)
  deriving Repr, DecidableEq

/-- `strings.EqualFold` restricted to ASCII. -/
def eqFoldL (a b : Str) : Bool := a.map lowerCh = b.map lowerCh

def gitCredentialsTok : Str := "git-credentials".data

def resolveAPIKey (env : Str → Str) (cred : Str → Except KeyErr Str)
    (raw endpoint : Str) : Except KeyErr Str :=
  if raw = [] then .ok []
  else if hasPrefixL raw ['$'] then
    let varName := raw.drop 1
    if varName = [] then .error .emptyVarName
    else
      let val := env varName
      if val = [] then .error (.missingEnv varName) else .ok val
  else if eqFoldL raw gitCredentialsTok then cred endpoint
  else .ok raw

/-!
## `sanitizeCommitMessage` (src/main.go:901) and
## `hasNonCommentContent` (src/main.go:917)
-/

def fenceTok : Str := ['`', '`', '`']

def sanitizeCommitMessage (s : Str) : Str :=
  let s1 := replaceCRLF s
  let s2 := trimSpaceL s1
  let s3 := trimPrefixL s2 fenceTok
  let s4 := trimSuffixL s3 fenceTok
  let s5 := trimSpaceL s4
  if s5 ≠ [] && !hasSuffixL s5 ['\n'] then s5 ++ ['\n'] else s5

def hasNonCommentContent (commitMsg : Str) : Bool :=
  (splitOnCh '\n' (replaceCRLF commitMsg)).any fun line =>
    let trim := trimSpaceL line
    !(trim = [] || hasPrefixL trim ['#'])

/-!
## The commit-message file merge (src/main.go:577-594)

The body of `runPrepareCommitMsg` that builds the new file content once a
non-empty sanitized message `msg` is in hand and the existing content
`existing` has passed the `hasNonCommentContent` gate.
-/

def mergeCommitMsg (existing msg : Str) : Str :=
  let newBody := if !hasSuffixL msg ['\n'] then msg ++ ['\n'] else msg
  if trimSpaceL existing ≠ [] then
    (if !hasSuffixL newBody ['\n', '\n'] then newBody ++ ['\n'] else newBody) ++ existing
  else newBody

/-!
## Diff truncation in `getStagedDiff` (src/main.go:776-794)

The subprocess part is external; the pure truncation logic on the collected
bytes is embedded.  `maxBytes` is a Go `int`, modelled as `Int`.
-/

def truncMarker : Str := "\n\n[diff truncated]\n".data

def truncateStagedDiff (maxBytes : Int) (b : Str) : Str :=
  if maxBytes > 0 && (b.length : Int) > maxBytes then
    b.take maxBytes.toNat ++ truncMarker
  else b

/-!
## `callChatCompletions` (src/main.go:849): response interpretation

The HTTP transport and JSON decoding are external; what is embedded is the
decision logic of lines 877-898 on the status code and the decoded response
shape (`chatCompletionsResponse`).  `decoded = none` stands for a body that
does not unmarshal.
-/

structure ChatChoice where
  content : Str
  deriving Repr, DecidableEq

structure ChatErrEnvelope where
  message : Str
  etype : Str
  deriving Repr, DecidableEq

structure ChatResponse where
  choices : List ChatChoice
  err : Option ChatErrEnvelope
  deriving Repr, DecidableEq

inductive CompletionOutcome where
  | httpErrParsed (status : Nat) (msg : Str)
  | httpErrRaw (status : Nat) (body : Str)
  | badBody (body : Str)
  | llmErr (msg : Str)
  | noChoices
  | success (content : Str)
  deriving Repr, DecidableEq

def interpretChatResponse (status : Nat) (decoded : Option ChatResponse)
    (body : Str) : CompletionOutcome :=
  if status < 200 || status ≥ 300 then
    match decoded with
    | some p =>
      match p.err with
      | some e => if e.message ≠ [] then .httpErrParsed status e.message
                  else .httpErrRaw status (trimSpaceL body)
      | none => .httpErrRaw status (trimSpaceL body)
    | none => .httpErrRaw status (trimSpaceL body)
  else
    match decoded with
    | none => .badBody (trimSpaceL body)
    | some p =>
      match p.err with
      | some e =>
        if e.message ≠ [] then .llmErr e.message
        else if p.choices = [] then .noChoices
        else .success (p.choices.headD ⟨[]⟩).content
      | none =>
        if p.choices = [] then .noChoices
        else .success (p.choices.headD ⟨[]⟩).content

/-!
## `runPrepareCommitMsg` (src/main.go:524): control flow and effects

The hook run is embedded as a function of an abstract environment (file
content, config lookup, staged diff, LLM reply) returning the result
together with a trace of the effects performed, so that frame claims
("no diff is collected", "no write happens") are statable.  `none` in an
environment field means that step fails when (and only when) attempted.
-/

structure HookConfig where
  endpoint : Str
  model : Str
  apiKey : Str
  maxDiffBytes : Int
  timeoutSeconds : Int
  deriving Repr, DecidableEq

structure HookEnv where
  file : Option Str
  config : Option HookConfig
  diff : Option Str
  llm : Option Str

structure HookTrace where
  fileRead : Bool
  configRead : Bool
  diffCollected : Bool
  llmCalled : Bool
  written : Option Str
  deriving Repr, DecidableEq

def emptyTrace : HookTrace := ⟨false, false, false, false, none⟩

inductive HookResult where
  | ok
  | errMissingArg
  | errReadFile
  | errConfig
  | errDiff
  | errLLM
  | errEmptyMessage
  deriving Repr, DecidableEq

def runPrepareCommitMsg (env : HookEnv) (args : List Str) : HookResult × HookTrace :=
  match args with
  | [] => (.errMissingArg, emptyTrace)
  | _msgFile :: rest =>
    let source := rest.headD []
    if source = "merge".data || source = "squash".data then (.ok, emptyTrace)
    else
      match env.file with
      | none => (.errReadFile, ⟨true, false, false, false, none⟩)
      | some existing =>
        if hasNonCommentContent existing then (.ok, ⟨true, false, false, false, none⟩)
        else
          match env.config with
          | none => (.errConfig, ⟨true, true, false, false, none⟩)
          | some cfg =>
            match env.diff with
            | none => (.errDiff, ⟨true, true, true, false, none⟩)
            | some rawDiff =>
              let diff := truncateStagedDiff cfg.maxDiffBytes rawDiff
              if trimSpaceL diff = [] then (.ok, ⟨true, true, true, false, none⟩)
              else
                match env.llm with
                | none => (.errLLM, ⟨true, true, true, true, none⟩)
                | some reply =>
                  let msg := sanitizeCommitMessage reply
                  if msg = [] then (.errEmptyMessage, ⟨true, true, true, true, none⟩)
                  else (.ok, ⟨true, true, true, true, some (mergeCommitMsg existing msg)⟩)

example : sanitizeCommitMessage "```\nfeat: x\n```".data = "feat: x\n".data := by decide
example : sanitizeCommitMessage "```x".data = "x\n".data := by decide
example : sanitizeCommitMessage "   \n\t ".data = [] := by decide
example : mergeCommitMsg "# c\n".data "feat: x\n".data = "feat: x\n\n# c\n".data := by decide
example : mergeCommitMsg "  \n".data "feat: x\n".data = "feat: x\n".data := by decide
example : hasNonCommentContent "\n# a\n  # b\n".data = false := by decide
example : hasNonCommentContent "# a\nhello\n".data = true := by decide

/-!
## Basic helper lemmas
-/

theorem hasSuffixL_iff {l s : Str} : hasSuffixL l s = true ↔ s <:+ l := by
  simp [hasSuffixL]

theorem hasPrefixL_iff {l p : Str} : hasPrefixL l p = true ↔ p <+: l := by
  simp [hasPrefixL]

theorem hasSuffixL_append (l s : Str) : hasSuffixL (l ++ s) s = true := by
  simp [hasSuffixL]

theorem trimSuffixL_append (l s : Str) : trimSuffixL (l ++ s) s = l := by
  have h : s.isSuffixOf (l ++ s) = true := by simp
  simp only [trimSuffixL, h, if_true, List.length_append]
  have : l.length + s.length - s.length = l.length := by omega
  rw [this, List.take_left]

theorem trimPrefixL_append (p l : Str) : trimPrefixL (p ++ l) p = l := by
  have h : p.isPrefixOf (p ++ l) = true := by simp
  simp only [trimPrefixL, h, if_true, List.drop_left]

theorem trimSuffixL_eq_of_suffix {l s : Str} (h : hasSuffixL l s = true) :
    trimSuffixL l s ++ s = l := by
  obtain ⟨w, hw⟩ := hasSuffixL_iff.mp h
  subst hw
  rw [trimSuffixL_append]

theorem trimSuffixL_eq_self_of_not_suffix {l s : Str} (h : hasSuffixL l s = false) :
    trimSuffixL l s = l := by
  simp only [hasSuffixL] at h
  simp [trimSuffixL, h]

/-- A `++ [c]`-snoc has suffix `[d, c]` exactly when the front has suffix `[d]`. -/
theorem hasSuffixL_snoc_pair (l : Str) (c d : Char) :
    hasSuffixL (l ++ [c]) [d, c] = hasSuffixL l [d] := by
  cases hdc : hasSuffixL l [d] with
  | true =>
    obtain ⟨w, hw⟩ := hasSuffixL_iff.mp hdc
    subst hw
    apply hasSuffixL_iff.mpr
    exact ⟨w, by simp⟩
  | false =>
    by_contra hne
    have htrue : hasSuffixL (l ++ [c]) [d, c] = true := by
      cases h : hasSuffixL (l ++ [c]) [d, c] with
      | true => rfl
      | false => rw [h] at hne; exact absurd rfl hne
    obtain ⟨w, hw⟩ := hasSuffixL_iff.mp htrue
    have hw' : (w ++ [d]) ++ [c] = l ++ [c] := by simpa using hw
    have hl : w ++ [d] = l := List.append_cancel_right hw'
    rw [← hl, hasSuffixL_append] at hdc
    exact absurd hdc (by simp)

theorem dropWhile_head?_not {p : Char → Bool} {l : Str} {c : Char}
    (h : (l.dropWhile p).head? = some c) : p c = false := by
  have := List.head?_dropWhile_not p l
  rw [h] at this
  exact this

/-- `trimSpaceL` output is empty or ends in a non-space character. -/
theorem trimSpaceL_getLast?_not_space {l : Str} {c : Char}
    (h : (trimSpaceL l).getLast? = some c) : isSpaceCh c = false := by
  unfold trimSpaceL at h
  rw [List.getLast?_reverse] at h
  exact dropWhile_head?_not h

/-- `trimSpaceL` of an all-whitespace string is empty. -/
theorem trimSpaceL_eq_nil_of_all_space {l : Str} (h : ∀ c ∈ l, isSpaceCh c = true) :
    trimSpaceL l = [] := by
  unfold trimSpaceL
  have h1 : l.dropWhile isSpaceCh = [] := List.dropWhile_eq_nil_iff.mpr h
  rw [h1]
  simp

/-- `trimSpaceL` keeps a string whose two ends are non-space. -/
theorem trimSpaceL_eq_self {l : Str} {a b : Char} (ha : l.head? = some a)
    (hsa : isSpaceCh a = false) (hb : l.getLast? = some b) (hsb : isSpaceCh b = false) :
    trimSpaceL l = l := by
  unfold trimSpaceL
  have h1 : l.dropWhile isSpaceCh = l := by
    cases l with
    | nil => rfl
    | cons x xs =>
      have hx : x = a := by simpa using ha
      subst hx
      rw [List.dropWhile_cons, hsa]
      simp
  rw [h1]
  have h2 : l.reverse.dropWhile isSpaceCh = l.reverse := by
    cases hrv : l.reverse with
    | nil => rfl
    | cons x xs =>
      have hx : l.getLast? = some x := by
        rw [← List.head?_reverse, hrv]
        rfl
      rw [hb] at hx
      have hxb : x = b := by simpa using hx.symm
      subst hxb
      rw [List.dropWhile_cons, hsb]
      simp
  rw [h2, List.reverse_reverse]

/-!
## Claim theorems: C7, C9, C10, C5, C2
-/

/-- C7: Diff truncation is byte-exact: when `maxBytes > 0` and the collected
diff is longer than `maxBytes` bytes, the returned text is exactly the first
`maxBytes` bytes of the diff followed by the fixed truncation marker; when
the diff length is at most `maxBytes`, or when `maxBytes` is 0 or negative,
the diff is returned untouched. -/
theorem claim_C7_truncation (maxBytes : Int) (b : Str) :
    (0 < maxBytes → maxBytes < (b.length : Int) →
      truncateStagedDiff maxBytes b = b.take maxBytes.toNat ++ truncMarker ∧
      (b.take maxBytes.toNat).length = maxBytes.toNat) ∧
    ((b.length : Int) ≤ maxBytes ∨ maxBytes ≤ 0 →
      truncateStagedDiff maxBytes b = b) := by
  constructor
  · intro h1 h2
    have hc : (decide (maxBytes > 0) && decide ((b.length : Int) > maxBytes)) = true := by
      simp only [Bool.and_eq_true, decide_eq_true_eq]
      exact ⟨h1, h2⟩
    constructor
    · simp only [truncateStagedDiff, hc, if_true]
    · have : maxBytes.toNat ≤ b.length := by omega
      simp [List.length_take, Nat.min_eq_left this]
  · intro h
    have hc : (decide (maxBytes > 0) && decide ((b.length : Int) > maxBytes)) = false := by
      simp only [Bool.and_eq_false_iff, decide_eq_false_iff_not]
      omega
    simp only [truncateStagedDiff, hc, if_false, Bool.false_eq_true]

theorem claim_C7_truncation_witness :
    truncateStagedDiff 3 "abcde".data = ("abc".data ++ truncMarker) ∧
    truncateStagedDiff 9 "abcde".data = "abcde".data ∧
    truncateStagedDiff 0 "abcde".data = "abcde".data := by
  refine ⟨?_, ?_, ?_⟩
  · have h := (claim_C7_truncation 3 ("abcde".data)).1 (by decide) (by decide)
    rw [h.1]
    rfl
  · exact (claim_C7_truncation 9 ("abcde".data)).2 (by decide)
  · exact (claim_C7_truncation 0 ("abcde".data)).2 (by decide)

/-- C9: for a 2xx HTTP status, the completion client surfaces a non-empty
error-envelope message first (even when choices are present), otherwise
errors on an empty choices list, otherwise returns the first choice's
message content unmodified. -/
theorem claim_C9_response_order (status : Nat) (p : ChatResponse) (body : Str)
    (h2 : 200 ≤ status) (h3 : status < 300) :
    (∀ e, p.err = some e → e.message ≠ [] →
      interpretChatResponse status (some p) body = .llmErr e.message) ∧
    ((p.err = none ∨ ∃ e, p.err = some e ∧ e.message = []) → p.choices = [] →
      interpretChatResponse status (some p) body = .noChoices) ∧
    (∀ c cs, (p.err = none ∨ ∃ e, p.err = some e ∧ e.message = []) → p.choices = c :: cs →
      interpretChatResponse status (some p) body = .success c.content) := by
  have hcond : (decide (status < 200) || decide (status ≥ 300)) = false := by
    simp only [Bool.or_eq_false_iff, decide_eq_false_iff_not]
    omega
  refine ⟨?_, ?_, ?_⟩
  · intro e he hmsg
    simp only [interpretChatResponse, hcond, if_false, Bool.false_eq_true, he]
    simp [hmsg]
  · intro herr hch
    rcases herr with h | ⟨e, he, hm⟩
    · simp [interpretChatResponse, hcond, h, hch]
    · simp [interpretChatResponse, hcond, he, hm, hch]
  · intro c cs herr hch
    rcases herr with h | ⟨e, he, hm⟩
    · simp [interpretChatResponse, hcond, h, hch]
    · simp [interpretChatResponse, hcond, he, hm, hch]

theorem claim_C9_response_order_witness :
    interpretChatResponse 200 (some ⟨[⟨"x".data⟩], some ⟨"boom".data, []⟩⟩) [] =
      .llmErr ("boom".data) ∧
    interpretChatResponse 200 (some ⟨[], none⟩) [] = .noChoices ∧
    interpretChatResponse 200 (some ⟨[⟨"fix: y".data⟩], none⟩) [] =
      .success ("fix: y".data) := by
  refine ⟨?_, ?_, ?_⟩
  · exact (claim_C9_response_order 200 ⟨[⟨"x".data⟩], some ⟨"boom".data, []⟩⟩ []
      (by decide) (by decide)).1 ⟨"boom".data, []⟩ rfl (by decide)
  · exact (claim_C9_response_order 200 ⟨[], none⟩ []
      (by decide) (by decide)).2.1 (Or.inl rfl) rfl
  · exact (claim_C9_response_order 200 ⟨[⟨"fix: y".data⟩], none⟩ []
      (by decide) (by decide)).2.2 ⟨"fix: y".data⟩ [] (Or.inl rfl) rfl

/-- C10: a prepare-commit-msg invocation whose source argument is `merge` or
`squash` returns success immediately: the commit-message file is neither
read nor written, no configuration is read, no diff is collected, and no
completion request is made. -/
theorem claim_C10_merge_squash_skip (env : HookEnv) (msgFile : Str) (rest : List Str)
    (h : rest.headD [] = "merge".data ∨ rest.headD [] = "squash".data) :
    runPrepareCommitMsg env (msgFile :: rest) = (.ok, ⟨false, false, false, false, none⟩) := by
  cases rest with
  | nil => rcases h with h | h <;> simp at h
  | cons a t =>
    rcases h with h | h
    · have ha : a = "merge".data := by simpa using h
      subst ha
      simp [runPrepareCommitMsg, emptyTrace]
    · have ha : a = "squash".data := by simpa using h
      subst ha
      simp [runPrepareCommitMsg, emptyTrace]

theorem claim_C10_merge_squash_skip_witness :
    runPrepareCommitMsg ⟨none, none, none, none⟩ ["MSG".data, "merge".data] =
      (.ok, ⟨false, false, false, false, none⟩) :=
  claim_C10_merge_squash_skip ⟨none, none, none, none⟩ ("MSG".data) ["merge".data]
    (Or.inl rfl)

/-- C5: when the existing commit-message file has a line that is neither
blank nor a `#`-comment after trimming, the run is a no-op: success, no
write, no config read, no diff collection, no completion request (only the
file itself was read). -/
theorem claim_C5_meaningful_content_noop (env : HookEnv) (msgFile : Str) (rest : List Str)
    (existing : Str)
    (hm : rest.headD [] ≠ "merge".data) (hs : rest.headD [] ≠ "squash".data)
    (hfile : env.file = some existing)
    (hcontent : hasNonCommentContent existing = true) :
    runPrepareCommitMsg env (msgFile :: rest) = (.ok, ⟨true, false, false, false, none⟩) := by
  cases rest with
  | nil => simp [runPrepareCommitMsg, hfile, hcontent, emptyTrace]
  | cons a t =>
    simp only [List.headD] at hm hs
    simp [runPrepareCommitMsg, hm, hs, hfile, hcontent, emptyTrace]

theorem claim_C5_meaningful_content_noop_witness :
    runPrepareCommitMsg ⟨some ("hello\n".data), none, none, none⟩ ["MSG".data] =
      (.ok, ⟨true, false, false, false, none⟩) :=
  claim_C5_meaningful_content_noop ⟨some ("hello\n".data), none, none, none⟩
    ("MSG".data) [] ("hello\n".data) (by decide) (by decide) rfl (by decide)

/-- C2: API-key resolution precedence: empty, then `$`-prefix (error on bare
`$`, error naming the variable when unset/empty, value otherwise), then
case-insensitive `git-credentials` delegating to the credential helper,
then literal fallback returned verbatim. -/
theorem claim_C2_key_resolution (env : Str → Str) (cred : Str → Except KeyErr Str) (e : Str) :
    resolveAPIKey env cred [] e = .ok [] ∧
    resolveAPIKey env cred ['$'] e = .error .emptyVarName ∧
    (∀ name, name ≠ [] → env name = [] →
      resolveAPIKey env cred ('$' :: name) e = .error (.missingEnv name)) ∧
    (∀ name, name ≠ [] → env name ≠ [] →
      resolveAPIKey env cred ('$' :: name) e = .ok (env name)) ∧
    (∀ raw, eqFoldL raw gitCredentialsTok = true → resolveAPIKey env cred raw e = cred e) ∧
    (∀ raw, raw ≠ [] → hasPrefixL raw ['$'] = false →
      eqFoldL raw gitCredentialsTok = false → resolveAPIKey env cred raw e = .ok raw) := by
  refine ⟨by simp [resolveAPIKey], by simp [resolveAPIKey, hasPrefixL, List.isPrefixOf],
    ?_, ?_, ?_, ?_⟩
  · intro name h1 h2
    simp [resolveAPIKey, hasPrefixL, List.isPrefixOf, h1, h2]
  · intro name h1 h2
    simp [resolveAPIKey, hasPrefixL, List.isPrefixOf, h1, h2]
  · intro raw hf
    have hne : raw ≠ [] := by
      intro h
      subst h
      simp [eqFoldL, gitCredentialsTok] at hf
    have hpre : hasPrefixL raw ['$'] = false := by
      cases hp : hasPrefixL raw ['$'] with
      | false => rfl
      | true =>
        obtain ⟨t, ht⟩ := hasPrefixL_iff.mp hp
        have hd : lowerCh '$' = '$' := by decide
        have hg : lowerCh 'g' = 'g' := by decide
        rw [← ht] at hf
        simp [eqFoldL, gitCredentialsTok, hd, hg] at hf
    simp [resolveAPIKey, hne, hpre, hf]
  · intro raw h1 h2 h3
    simp [resolveAPIKey, h1, h2, h3]

def envW : Str → Str := fun n => if n = "FOO".data then "bar".data else []

def credW : Str → Except KeyErr Str := fun _ => .ok ("from-helper".data)

theorem claim_C2_key_resolution_witness :
    resolveAPIKey envW credW [] ("ep".data) = .ok [] ∧
    resolveAPIKey envW credW ['$'] ("ep".data) = .error .emptyVarName ∧
    resolveAPIKey envW credW ('$' :: "BAR".data) ("ep".data) =
      .error (.missingEnv ("BAR".data)) ∧
    resolveAPIKey envW credW ('$' :: "FOO".data) ("ep".data) = .ok (envW ("FOO".data)) ∧
    resolveAPIKey envW credW ("GIT-Credentials".data) ("ep".data) = credW ("ep".data) ∧
    resolveAPIKey envW credW ("sk-abc".data) ("ep".data) = .ok ("sk-abc".data) := by
  have T := claim_C2_key_resolution envW credW ("ep".data)
  exact ⟨T.1, T.2.1,
    T.2.2.1 ("BAR".data) (by decide) (by decide),
    T.2.2.2.1 ("FOO".data) (by decide) (by decide),
    T.2.2.2.2.1 ("GIT-Credentials".data) (by decide),
    T.2.2.2.2.2 ("sk-abc".data) (by decide) (by decide) (by decide)⟩

/-!
## Lemmas about `replaceCRLF`, `sanitizeCommitMessage` and `mergeCommitMsg`
-/

theorem replaceCRLF_cons_rn (rest : Str) :
    replaceCRLF ('\r' :: '\n' :: rest) = '\n' :: replaceCRLF rest := rfl

theorem replaceCRLF_cons_ne {c : Char} (rest : Str) (h : c ≠ '\r') :
    replaceCRLF (c :: rest) = c :: replaceCRLF rest := by
  conv_lhs => rw [replaceCRLF.eq_def]
  split
  · rename_i heq
    rw [List.cons.injEq] at heq
    exact absurd heq.1 h
  · rename_i heq
    injection heq with h1 h2
    subst h1
    subst h2
    rfl
  · rename_i heq
    simp at heq

theorem replaceCRLF_cons_r_not_nl {rest : Str} (h : rest.head? ≠ some '\n') :
    replaceCRLF ('\r' :: rest) = '\r' :: replaceCRLF rest := by
  cases rest with
  | nil => rfl
  | cons x bs =>
    have hx : x ≠ '\n' := by simpa using h
    conv_lhs => rw [replaceCRLF.eq_def]
    split
    · rename_i heq
      rw [List.cons.injEq, List.cons.injEq] at heq
      exact absurd heq.2.1 hx
    · rename_i heq
      injection heq with h1 h2
      subst h1
      subst h2
      rfl
    · rename_i heq
      simp at heq

/-- `replaceCRLF` distributes over an append whose right part does not start
with a bare `\n` (so no `\r\n` pair straddles the seam). -/
theorem replaceCRLF_append (b : Str) (hb : b.head? ≠ some '\n') (a : Str) :
    replaceCRLF (a ++ b) = replaceCRLF a ++ replaceCRLF b := by
  have H : ∀ n (a : Str), a.length ≤ n →
      replaceCRLF (a ++ b) = replaceCRLF a ++ replaceCRLF b := by
    intro n
    induction n with
    | zero =>
      intro a ha
      have : a = [] := by
        cases a with
        | nil => rfl
        | cons x t => simp at ha
      subst this
      simp [replaceCRLF]
    | succ n ih =>
      intro a ha
      cases a with
      | nil => simp [replaceCRLF]
      | cons c t =>
        by_cases hc : c = '\r'
        · subst hc
          cases t with
          | nil =>
            rw [List.cons_append, List.nil_append, replaceCRLF_cons_r_not_nl hb]
            rfl
          | cons d t2 =>
            by_cases hd : d = '\n'
            · subst hd
              rw [List.cons_append, List.cons_append, replaceCRLF_cons_rn,
                replaceCRLF_cons_rn]
              rw [ih t2 (by simp at ha; omega)]
              rfl
            · have hh : (d :: (t2 ++ b)).head? ≠ some '\n' := by simpa using hd
              have hh2 : (d :: t2).head? ≠ some '\n' := by simpa using hd
              rw [List.cons_append, List.cons_append, replaceCRLF_cons_r_not_nl hh,
                replaceCRLF_cons_r_not_nl hh2]
              rw [← List.cons_append, ih (d :: t2) (by simp at ha; simp only [List.length_cons]; omega)]
              rfl
        · rw [List.cons_append, replaceCRLF_cons_ne _ hc, replaceCRLF_cons_ne _ hc,
            ih t (by simp at ha; omega)]
          rfl
  exact H a.length a le_rfl

/-- Every character of `replaceCRLF s` occurs in `s`. -/
theorem replaceCRLF_all {p : Char → Bool} {s : Str} (h : ∀ c ∈ s, p c = true) :
    ∀ c ∈ replaceCRLF s, p c = true := by
  have H : ∀ n (s : Str), s.length ≤ n → (∀ c ∈ s, p c = true) →
      ∀ c ∈ replaceCRLF s, p c = true := by
    intro n
    induction n with
    | zero =>
      intro s hs h'
      have : s = [] := by
        cases s with
        | nil => rfl
        | cons x t => simp at hs
      subst this
      simp [replaceCRLF]
    | succ n ih =>
      intro s hs h'
      cases s with
      | nil => simp [replaceCRLF]
      | cons c t =>
        by_cases hc : c = '\r'
        · subst hc
          cases t with
          | nil => simpa [replaceCRLF] using h'
          | cons d t2 =>
            by_cases hd : d = '\n'
            · subst hd
              rw [replaceCRLF_cons_rn]
              intro x hx
              rcases List.mem_cons.mp hx with hx | hx
              · subst hx
                exact h' '\n' (by simp)
              · exact ih t2 (by simp at hs; omega)
                  (fun y hy => h' y (List.mem_cons_of_mem _ (List.mem_cons_of_mem _ hy))) x hx
            · have hh : (d :: t2).head? ≠ some '\n' := by simpa using hd
              rw [replaceCRLF_cons_r_not_nl hh]
              intro x hx
              rcases List.mem_cons.mp hx with hx | hx
              · subst hx
                exact h' '\r' (by simp)
              · exact ih (d :: t2) (by simp at hs; simp only [List.length_cons]; omega)
                  (fun y hy => h' y (List.mem_cons_of_mem _ hy)) x hx
        · rw [replaceCRLF_cons_ne _ hc]
          intro x hx
          rcases List.mem_cons.mp hx with hx | hx
          · rw [hx]
            exact h' c (by simp)
          · exact ih t (by simp at hs; omega)
              (fun y hy => h' y (List.mem_cons_of_mem _ hy)) x hx
  exact H s.length s le_rfl h

/-- Every non-empty sanitizer output is a trimmed body plus exactly one
trailing newline. -/
theorem sanitize_shape (raw : Str) :
    sanitizeCommitMessage raw = [] ∨
    ∃ t, t ≠ [] ∧ hasSuffixL t ['\n'] = false ∧
      sanitizeCommitMessage raw = t ++ ['\n'] := by
  unfold sanitizeCommitMessage
  generalize hG : trimSpaceL (trimSuffixL (trimPrefixL (trimSpaceL (replaceCRLF raw)) fenceTok)
    fenceTok) = s5
  by_cases h : s5 = []
  · left
    simp only [hG]
    simp [h]
  · right
    have hsuf : hasSuffixL s5 ['\n'] = false := by
      cases hsf : hasSuffixL s5 ['\n'] with
      | false => rfl
      | true =>
        obtain ⟨w, hw⟩ := hasSuffixL_iff.mp hsf
        have hlast : s5.getLast? = some '\n' := by
          rw [← hw]
          simp
        rw [← hG] at hlast
        have := trimSpaceL_getLast?_not_space hlast
        simp [isSpaceCh] at this
    refine ⟨s5, h, hsuf, ?_⟩
    simp only [hG]
    simp [h, hsuf]

/-- The merge step for a message that ends in exactly one newline (every
non-empty sanitizer output does). -/
theorem mergeCommitMsg_eq (existing msg : Str)
    (h1 : hasSuffixL msg ['\n'] = true) (h2 : hasSuffixL msg ['\n', '\n'] = false) :
    mergeCommitMsg existing msg =
      msg ++ (if trimSpaceL existing = [] then [] else '\n' :: existing) := by
  unfold mergeCommitMsg
  simp only [h1, Bool.not_true, if_false, Bool.false_eq_true]
  by_cases hex : trimSpaceL existing = []
  · simp [hex]
  · simp only [hex, if_neg, h2, Bool.not_false, if_true]
    rw [if_pos (by simpa using hex), if_neg (by simp [h2])]
    simp

/-- C3: when the existing file has no meaningful line and the sanitized
generated message is non-empty, the merged text is the generated message
(which carries exactly one trailing newline), followed by one blank line and
the existing text verbatim when the existing text is non-blank after
trimming, and nothing else when the existing text is blank. -/
theorem claim_C3_merge_format (existing raw : Str)
    (_hgate : hasNonCommentContent existing = false)
    (hmsg : sanitizeCommitMessage raw ≠ []) :
    (∃ t, t ≠ [] ∧ hasSuffixL t ['\n'] = false ∧
      sanitizeCommitMessage raw = t ++ ['\n']) ∧
    mergeCommitMsg existing (sanitizeCommitMessage raw) =
      sanitizeCommitMessage raw ++
        (if trimSpaceL existing = [] then [] else '\n' :: existing) := by
  obtain h | ⟨t, ht, hsuf, heq⟩ := sanitize_shape raw
  · exact absurd h hmsg
  refine ⟨⟨t, ht, hsuf, heq⟩, ?_⟩
  apply mergeCommitMsg_eq
  · rw [heq]
    exact hasSuffixL_append t ['\n']
  · rw [heq, hasSuffixL_snoc_pair]
    exact hsuf

theorem claim_C3_merge_format_witness :
    mergeCommitMsg ("\n# Please enter the commit message\n".data)
        (sanitizeCommitMessage ("feat: x".data)) =
      sanitizeCommitMessage ("feat: x".data) ++
        (if trimSpaceL ("\n# Please enter the commit message\n".data) = [] then []
         else '\n' :: ("\n# Please enter the commit message\n".data)) ∧
    mergeCommitMsg ("  \n".data) (sanitizeCommitMessage ("feat: x".data)) =
      sanitizeCommitMessage ("feat: x".data) ++
        (if trimSpaceL ("  \n".data) = [] then [] else '\n' :: ("  \n".data)) :=
  ⟨(claim_C3_merge_format ("\n# Please enter the commit message\n".data) ("feat: x".data)
      (by decide) (by decide)).2,
   (claim_C3_merge_format ("  \n".data) ("feat: x".data) (by decide) (by decide)).2⟩

/-- C4 counterexample: a file holding only the comment line `# c` passes the
comment-only classification, yet the merge does NOT replace it — the comment
line is preserved below the generated message, so the result is not the
generated message alone. -/
theorem claim_C4_counterexample :
    hasNonCommentContent ("# c\n".data) = false ∧
    mergeCommitMsg ("# c\n".data) ("feat: x\n".data) ≠ ("feat: x\n".data) ∧
    mergeCommitMsg ("# c\n".data) ("feat: x\n".data) = ("feat: x\n\n# c\n".data) := by
  decide

/-- C4 (amended): for existing content consisting only of blank lines and
`#`-comment lines that is non-blank after trimming, the merge does not
discard the comment lines: the new text is the generated message followed by
one blank line and then the prior content verbatim (which therefore remains
a suffix of the file); only blank-after-trim content is dropped. -/
theorem claim_C4_amended (existing raw : Str)
    (_hgate : hasNonCommentContent existing = false)
    (hmsg : sanitizeCommitMessage raw ≠ [])
    (hnb : trimSpaceL existing ≠ []) :
    mergeCommitMsg existing (sanitizeCommitMessage raw) =
      (sanitizeCommitMessage raw ++ ['\n']) ++ existing ∧
    existing <:+ mergeCommitMsg existing (sanitizeCommitMessage raw) := by
  obtain h | ⟨t, ht, hsuf, heq⟩ := sanitize_shape raw
  · exact absurd h hmsg
  have h1 : hasSuffixL (sanitizeCommitMessage raw) ['\n'] = true := by
    rw [heq]
    exact hasSuffixL_append t ['\n']
  have h2 : hasSuffixL (sanitizeCommitMessage raw) ['\n', '\n'] = false := by
    rw [heq, hasSuffixL_snoc_pair]
    exact hsuf
  have hm := mergeCommitMsg_eq existing (sanitizeCommitMessage raw) h1 h2
  rw [if_neg hnb] at hm
  constructor
  · rw [hm]
    simp
  · rw [hm]
    exact ⟨sanitizeCommitMessage raw ++ ['\n'], by simp⟩

theorem claim_C4_amended_witness :
    mergeCommitMsg ("# comment only\n".data) (sanitizeCommitMessage ("fix: y".data)) =
      (sanitizeCommitMessage ("fix: y".data) ++ ['\n']) ++ ("# comment only\n".data) ∧
    ("# comment only\n".data) <:+
      mergeCommitMsg ("# comment only\n".data) (sanitizeCommitMessage ("fix: y".data)) :=
  claim_C4_amended ("# comment only\n".data) ("fix: y".data) (by decide) (by decide) (by decide)

/-- Trimmed text never ends in a newline. -/
theorem trimSpaceL_not_newline_suffix (l : Str) :
    hasSuffixL (trimSpaceL l) ['\n'] = false := by
  cases hsf : hasSuffixL (trimSpaceL l) ['\n'] with
  | false => rfl
  | true =>
    obtain ⟨w, hw⟩ := hasSuffixL_iff.mp hsf
    have hlast : (trimSpaceL l).getLast? = some '\n' := by
      rw [← hw]
      simp
    have := trimSpaceL_getLast?_not_space hlast
    simp [isSpaceCh] at this

/-- The sanitizer on input wrapped in triple-backtick fences on both ends:
the fences are stripped and the trimmed inner text gets exactly one trailing
newline (empty when the inner text is blank). -/
theorem sanitize_fenced (X : Str) :
    sanitizeCommitMessage (fenceTok ++ X ++ fenceTok) =
      (if trimSpaceL (replaceCRLF X) = [] then []
       else trimSpaceL (replaceCRLF X) ++ ['\n']) := by
  unfold sanitizeCommitMessage
  have hb : (fenceTok : Str).head? ≠ some '\n' := by decide
  have h0 : replaceCRLF (fenceTok ++ X ++ fenceTok) =
      fenceTok ++ replaceCRLF X ++ fenceTok := by
    rw [replaceCRLF_append fenceTok hb (fenceTok ++ X)]
    have hf : replaceCRLF fenceTok = fenceTok := by decide
    rw [hf]
    congr 1
  have h1 : trimSpaceL (fenceTok ++ replaceCRLF X ++ fenceTok) =
      fenceTok ++ replaceCRLF X ++ fenceTok := by
    refine trimSpaceL_eq_self (a := '`') (b := '`') rfl (by decide) ?_ (by decide)
    rw [List.getLast?_append, show (fenceTok : Str).getLast? = some '`' from rfl]
    rfl
  have h2 : trimPrefixL (fenceTok ++ replaceCRLF X ++ fenceTok) fenceTok =
      replaceCRLF X ++ fenceTok := by
    rw [List.append_assoc]
    exact trimPrefixL_append fenceTok (replaceCRLF X ++ fenceTok)
  simp only [h0, h1, h2, trimSuffixL_append]
  by_cases h : trimSpaceL (replaceCRLF X) = []
  · simp [h]
  · simp [h, trimSpaceL_not_newline_suffix]

/-- C8 counterexample: the input "```x" is not wrapped in fences on both
ends (it only begins with one), yet the sanitizer still strips the leading
fence: the output is "x\n" rather than the untouched trimmed text plus a
newline.  This refutes the claim that fence markers are stripped only when
the entire message is wrapped in a fence. -/
theorem claim_C8_counterexample :
    hasPrefixL (trimSpaceL (replaceCRLF ("```x").data)) fenceTok = true ∧
    hasSuffixL (trimSpaceL (replaceCRLF ("```x").data)) fenceTok = false ∧
    sanitizeCommitMessage (("```x").data) ≠
      trimSpaceL (replaceCRLF (("```x").data)) ++ ['\n'] ∧
    sanitizeCommitMessage (("```x").data) = ("x\n").data := by
  decide

/-- C8 (amended): the sanitizer is pure and (1) strips a fence wrapping on
both ends, returning the trimmed inner text with exactly one trailing
newline; (2) sanitizes every all-whitespace input to the empty string;
(3) gives every non-empty output exactly one trailing newline after CRLF
normalization and trimming; but (4) it strips a leading fence marker and a
trailing fence marker independently of each other, not only when the entire
message is wrapped in one (witness "```x" → "x\n"). -/
theorem claim_C8_amended :
    (∀ X, sanitizeCommitMessage (fenceTok ++ X ++ fenceTok) =
      (if trimSpaceL (replaceCRLF X) = [] then []
       else trimSpaceL (replaceCRLF X) ++ ['\n'])) ∧
    (∀ s, (∀ c ∈ s, isSpaceCh c = true) → sanitizeCommitMessage s = []) ∧
    (∀ s, sanitizeCommitMessage s ≠ [] →
      ∃ t, t ≠ [] ∧ hasSuffixL t ['\n'] = false ∧
        sanitizeCommitMessage s = t ++ ['\n']) ∧
    sanitizeCommitMessage (("```x").data) = ("x\n").data := by
  refine ⟨sanitize_fenced, ?_, ?_, by decide⟩
  · intro s hsp
    unfold sanitizeCommitMessage
    have h2 : trimSpaceL (replaceCRLF s) = [] :=
      trimSpaceL_eq_nil_of_all_space (replaceCRLF_all hsp)
    have h3 : trimSpaceL (trimSuffixL (trimPrefixL ([] : Str) fenceTok) fenceTok) = [] := by
      decide
    simp only [h2, h3]
    simp
  · intro s hne
    obtain h | ht := sanitize_shape s
    · exact absurd h hne
    · exact ht

theorem claim_C8_amended_witness :
    sanitizeCommitMessage (fenceTok ++ ("\nfeat: z\n- a\n").data ++ fenceTok) =
      (if trimSpaceL (replaceCRLF (("\nfeat: z\n- a\n").data)) = [] then []
       else trimSpaceL (replaceCRLF (("\nfeat: z\n- a\n").data)) ++ ['\n']) ∧
    sanitizeCommitMessage ("  \t \n".data) = [] ∧
    (∃ t, t ≠ [] ∧ hasSuffixL t ['\n'] = false ∧
      sanitizeCommitMessage ("chore: tidy".data) = t ++ ['\n']) :=
  ⟨claim_C8_amended.1 (("\nfeat: z\n- a\n").data),
   claim_C8_amended.2.1 ("  \t \n".data) (by decide),
   claim_C8_amended.2.2.1 ("chore: tidy".data) (by decide)⟩

/-!
## Character-class lemmas
-/

theorem charLe_iff {a b : Char} : a ≤ b ↔ a.toNat ≤ b.toNat := Iff.rfl

theorem toNat_ofNat_valid {n : Nat} (h : n < 0xd800) : (Char.ofNat n).toNat = n := by
  rw [Char.ofNat, dif_pos (Or.inl h)]
  rfl

theorem char_eq_toNat {a b : Char} (h : a = b) : a.toNat = b.toNat := congrArg Char.toNat h

theorem isUpperCh_iff {c : Char} : isUpperCh c = true ↔ 65 ≤ c.toNat ∧ c.toNat ≤ 90 := by
  simp [isUpperCh, charLe_iff]

theorem isLowerCh_iff {c : Char} : isLowerCh c = true ↔ 97 ≤ c.toNat ∧ c.toNat ≤ 122 := by
  simp [isLowerCh, charLe_iff]

theorem isDigitCh_iff {c : Char} : isDigitCh c = true ↔ 48 ≤ c.toNat ∧ c.toNat ≤ 57 := by
  simp [isDigitCh, charLe_iff]

theorem isAlphaCh_bounds {c : Char} (h : isAlphaCh c = true) :
    65 ≤ c.toNat ∧ c.toNat ≤ 122 := by
  rcases Bool.or_eq_true_iff.mp (by simpa [isAlphaCh] using h) with h | h
  · have := isLowerCh_iff.mp h
    omega
  · have := isUpperCh_iff.mp h
    omega

theorem lowerCh_toNat_of_upper {c : Char} (h : isUpperCh c = true) :
    (lowerCh c).toNat = c.toNat + 32 := by
  have hb := isUpperCh_iff.mp h
  rw [lowerCh, if_pos h]
  exact toNat_ofNat_valid (by omega)

theorem lowerCh_eq_of_not_upper {c : Char} (h : isUpperCh c = false) : lowerCh c = c := by
  rw [lowerCh, if_neg (by simp [h])]

theorem lowerCh_idem (c : Char) : lowerCh (lowerCh c) = lowerCh c := by
  cases hu : isUpperCh c with
  | false => rw [lowerCh_eq_of_not_upper hu, lowerCh_eq_of_not_upper hu]
  | true =>
    have ht := lowerCh_toNat_of_upper hu
    have hb := isUpperCh_iff.mp hu
    apply lowerCh_eq_of_not_upper
    cases h2 : isUpperCh (lowerCh c) with
    | false => rfl
    | true =>
      have := isUpperCh_iff.mp h2
      omega

theorem lowerCh_alpha (c : Char) : isAlphaCh (lowerCh c) = isAlphaCh c := by
  cases hu : isUpperCh c with
  | false => rw [lowerCh_eq_of_not_upper hu]
  | true =>
    have ht := lowerCh_toNat_of_upper hu
    have hb := isUpperCh_iff.mp hu
    have h1 : isAlphaCh (lowerCh c) = true := by
      have hl : isLowerCh (lowerCh c) = true := isLowerCh_iff.mpr (by omega)
      simp [isAlphaCh, hl]
    have h2 : isAlphaCh c = true := by
      simp [isAlphaCh, hu]
    rw [h1, h2]

def schemeCh (c : Char) : Bool :=
  isAlphaCh c || isDigitCh c || c = '+' || c = '-' || c = '.'

theorem lowerCh_schemeCh (c : Char) : schemeCh (lowerCh c) = schemeCh c := by
  cases hu : isUpperCh c with
  | false => rw [lowerCh_eq_of_not_upper hu]
  | true =>
    have ht := lowerCh_toNat_of_upper hu
    have hb := isUpperCh_iff.mp hu
    have h1 : schemeCh (lowerCh c) = true := by
      have hl : isLowerCh (lowerCh c) = true := isLowerCh_iff.mpr (by omega)
      simp [schemeCh, isAlphaCh, hl]
    have h2 : schemeCh c = true := by
      simp [schemeCh, isAlphaCh, hu]
    rw [h1, h2]

theorem pathSafeCh_toNat {c : Char} (h : pathSafeCh c = true) :
    36 ≤ c.toNat ∧ c.toNat ≤ 126 ∧ c.toNat ≠ 63 ∧ c.toNat ≠ 35 := by
  simp only [pathSafeCh, Bool.or_eq_true_iff] at h
  rcases h with (h | h) | h
  · have := isAlphaCh_bounds h
    omega
  · have := isDigitCh_iff.mp h
    omega
  · simp at h
    rcases h with rfl | rfl | rfl | rfl | rfl | rfl | rfl | rfl | rfl | rfl | rfl | rfl | rfl <;>
      decide

theorem hostCh_toNat {c : Char} (h : hostCh c = true) :
    45 ≤ c.toNat ∧ c.toNat ≤ 126 ∧ c.toNat ≠ 63 ∧ c.toNat ≠ 35 ∧ c.toNat ≠ 47 ∧
      c.toNat ≠ 64 := by
  simp only [hostCh, Bool.or_eq_true_iff] at h
  rcases h with (h | h) | h
  · have := isAlphaCh_bounds h
    omega
  · have := isDigitCh_iff.mp h
    omega
  · simp at h
    rcases h with rfl | rfl | rfl | rfl | rfl <;> decide

theorem schemeCh_toNat {c : Char} (h : schemeCh c = true) :
    43 ≤ c.toNat ∧ c.toNat ≤ 122 ∧ c.toNat ≠ 63 ∧ c.toNat ≠ 35 ∧ c.toNat ≠ 47 ∧
      c.toNat ≠ 58 := by
  simp only [schemeCh, Bool.or_eq_true_iff] at h
  rcases h with (((h | h) | h) | h) | h
  · have := isAlphaCh_bounds h
    omega
  · have := isDigitCh_iff.mp h
    omega
  · simp at h
    subst h
    decide
  · simp at h
    subst h
    decide
  · simp at h
    subst h
    decide

theorem fragSafeCh_toNat {c : Char} (h : fragSafeCh c = true) :
    33 ≤ c.toNat ∧ c.toNat ≤ 126 ∧ c.toNat ≠ 35 := by
  simp only [fragSafeCh, Bool.or_eq_true_iff] at h
  rcases h with h | h
  · have := pathSafeCh_toNat h
    omega
  · simp at h
    rcases h with rfl | rfl | rfl | rfl | rfl <;> decide

theorem ne_of_toNat_ne {c d : Char} (h : c.toNat ≠ d.toNat) : c ≠ d :=
  fun he => h (char_eq_toNat he)

theorem ctlCh_eq_false_of_ge {c : Char} (h1 : 33 ≤ c.toNat) (h2 : c.toNat ≤ 126) :
    ctlCh c = false := by
  simp only [ctlCh, Bool.or_eq_false_iff, decide_eq_false_iff_not]
  omega

/-!
## Lemmas about the `split`/`cut` helpers
-/

theorem cutListDrop_not_mem {sep : Char} {l : Str} (h : sep ∉ l) :
    cutListDrop sep l = (l, []) := by
  induction l with
  | nil => rfl
  | cons c t ih =>
    have hc : c ≠ sep := by
      intro he
      exact h (he ▸ List.mem_cons_self c t)
    have ht : sep ∉ t := fun hm => h (List.mem_cons_of_mem _ hm)
    simp [cutListDrop, hc, ih ht]

theorem cutListDrop_append {sep : Char} {a : Str} (b : Str) (h : sep ∉ a) :
    cutListDrop sep (a ++ sep :: b) = (a, b) := by
  induction a with
  | nil => simp [cutListDrop]
  | cons c t ih =>
    have hc : c ≠ sep := by
      intro he
      exact h (he ▸ List.mem_cons_self c t)
    have ht : sep ∉ t := fun hm => h (List.mem_cons_of_mem _ hm)
    simp [cutListDrop, hc, ih ht]

theorem cutListKeep_append {sep : Char} {a : Str} (b : Str) (h : sep ∉ a) :
    cutListKeep sep (a ++ sep :: b) = (a, sep :: b) := by
  induction a with
  | nil => simp [cutListKeep]
  | cons c t ih =>
    have hc : c ≠ sep := by
      intro he
      exact h (he ▸ List.mem_cons_self c t)
    have ht : sep ∉ t := fun hm => h (List.mem_cons_of_mem _ hm)
    simp [cutListKeep, hc, ih ht]

theorem hasSuffixL_singleton_mem {l : Str} {c : Char} (h : hasSuffixL l [c] = true) :
    c ∈ l := by
  obtain ⟨w, hw⟩ := hasSuffixL_iff.mp h
  rw [← hw]
  simp

/-!
## `getScheme` lemmas
-/

/-- A well-formed, already-lower-cased scheme, as produced by `parseInner`. -/
def WfScheme (s : Str) : Prop :=
  (∃ c cs, s = c :: cs ∧ isAlphaCh c = true) ∧ (∀ c ∈ s, schemeCh c = true) ∧
    s.map lowerCh = s

theorem getSchemeAux_append {R : Str} (orig : Str) :
    ∀ (cs acc : Str), (acc = [] → ∃ c cs', cs = c :: cs' ∧ isAlphaCh c = true) →
      (∀ c ∈ cs, schemeCh c = true) →
      getSchemeAux orig acc (cs ++ ':' :: R) = some (acc ++ cs, R) := by
  intro cs
  induction cs with
  | nil =>
    intro acc hne _
    have hacc : acc ≠ [] := by
      intro he
      obtain ⟨c, cs', hcs, _⟩ := hne he
      exact absurd hcs (by simp)
    simp only [List.nil_append, getSchemeAux]
    have h1 : isAlphaCh ':' = false := by decide
    have h2 : isDigitCh ':' = false := by decide
    simp [h1, h2, hacc]
  | cons c t ih =>
    intro acc hne hch
    have hc : schemeCh c = true := hch c (by simp)
    have hct : ∀ x ∈ t, schemeCh x = true := fun x hx => hch x (by simp [hx])
    simp only [List.cons_append, getSchemeAux, List.append_eq]
    by_cases ha : isAlphaCh c = true
    · rw [if_pos ha]
      rw [ih (acc ++ [c]) (by intro he; simp at he) hct]
      simp
    · have hd : isDigitCh c || c = '+' || c = '-' || c = '.' := by
        simp only [schemeCh, Bool.or_eq_true_iff] at hc
        rcases hc with (((h | h) | h) | h) | h
        · exact absurd h ha
        · simp [h]
        · simp [h]
        · simp [h]
        · simp [h]
      have hacc : acc ≠ [] := by
        intro he
        obtain ⟨c', cs', hcs, hal⟩ := hne he
        obtain ⟨h1, _⟩ := List.cons.inj hcs
        rw [← h1] at hal
        exact absurd hal (by simp [ha])
      rw [if_neg (by simp [ha])]
      rw [if_pos (by simpa using hd), if_neg hacc]
      rw [ih (acc ++ [c]) (by intro he; simp at he) hct]
      simp

/-- `getScheme` on a well-formed `scheme ++ ":" ++ rest` string. -/
theorem getScheme_append {s R : Str} (h : WfScheme s) :
    getScheme (s ++ ':' :: R) = some (s, R) := by
  obtain ⟨⟨c, cs, hs, hal⟩, hch, _⟩ := h
  have := getSchemeAux_append (R := R) (s ++ ':' :: R) s []
    (fun _ => ⟨c, cs, hs, hal⟩) hch
  simpa [getScheme] using this

theorem getSchemeAux_inv (orig : Str) :
    ∀ (l acc sch rest : Str),
      (acc = [] ∨ ((∃ c cs, acc = c :: cs ∧ isAlphaCh c = true) ∧
        ∀ c ∈ acc, schemeCh c = true)) →
      getSchemeAux orig acc l = some (sch, rest) →
      (sch = [] ∧ rest = orig) ∨
        ((∃ c cs, sch = c :: cs ∧ isAlphaCh c = true) ∧ ∀ c ∈ sch, schemeCh c = true) := by
  intro l
  induction l with
  | nil =>
    intro acc sch rest _ h
    simp only [getSchemeAux, Option.some.injEq, Prod.mk.injEq] at h
    exact Or.inl ⟨h.1.symm, h.2.symm⟩
  | cons c t ih =>
    intro acc sch rest hacc h
    simp only [getSchemeAux] at h
    by_cases ha : isAlphaCh c = true
    · rw [if_pos ha] at h
      refine ih (acc ++ [c]) sch rest (Or.inr ⟨?_, ?_⟩) h
      · rcases hacc with rfl | ⟨⟨c', cs', hacc1, hacc2⟩, _⟩
        · exact ⟨c, [], by simp, ha⟩
        · exact ⟨c', cs' ++ [c], by simp [hacc1], hacc2⟩
      · intro x hx
        rcases List.mem_append.mp hx with hx | hx
        · rcases hacc with rfl | ⟨_, hacc3⟩
          · simp at hx
          · exact hacc3 x hx
        · have : x = c := by simpa using hx
          subst this
          simp [schemeCh, ha]
    · rw [if_neg ha] at h
      by_cases hd : (isDigitCh c || c = '+' || c = '-' || c = '.') = true
      · rw [if_pos hd] at h
        by_cases he : acc = []
        · rw [if_pos he] at h
          simp only [Option.some.injEq, Prod.mk.injEq] at h
          exact Or.inl ⟨h.1.symm, h.2.symm⟩
        · rw [if_neg he] at h
          refine ih (acc ++ [c]) sch rest (Or.inr ⟨?_, ?_⟩) h
          · rcases hacc with rfl | ⟨⟨c', cs', hacc1, hacc2⟩, _⟩
            · exact absurd rfl he
            · exact ⟨c', cs' ++ [c], by simp [hacc1], hacc2⟩
          · intro x hx
            rcases List.mem_append.mp hx with hx | hx
            · rcases hacc with rfl | ⟨_, hacc3⟩
              · exact absurd rfl he
              · exact hacc3 x hx
            · have : x = c := by simpa using hx
              subst this
              simp only [schemeCh]
              simp only [Bool.or_eq_true_iff] at hd ⊢
              rcases hd with (hd | hd) | hd
              · rcases hd with hd | hd
                · exact Or.inl (Or.inl (Or.inl (Or.inr hd)))
                · exact Or.inl (Or.inl (Or.inr hd))
              · exact Or.inl (Or.inr hd)
              · exact Or.inr hd
      · rw [if_neg hd] at h
        by_cases hcol : c = ':'
        · rw [if_pos hcol] at h
          by_cases he : acc = []
          · rw [if_pos he] at h
            exact absurd h (by simp)
          · rw [if_neg he] at h
            simp only [Option.some.injEq, Prod.mk.injEq] at h
            rcases hacc with rfl | ⟨hacc1, hacc2⟩
            · exact absurd rfl he
            · rw [← h.1]
              exact Or.inr ⟨hacc1, hacc2⟩
        · rw [if_neg hcol] at h
          simp only [Option.some.injEq, Prod.mk.injEq] at h
          exact Or.inl ⟨h.1.symm, h.2.symm⟩

theorem getScheme_inv {s sch rest : Str} (h : getScheme s = some (sch, rest)) :
    sch = [] ∨
      ((∃ c cs, sch = c :: cs ∧ isAlphaCh c = true) ∧ ∀ c ∈ sch, schemeCh c = true) := by
  rcases getSchemeAux_inv s s [] sch rest (Or.inl rfl) h with ⟨h1, _⟩ | h2
  · exact Or.inl h1
  · exact Or.inr h2

/-- A scheme produced by `parseInner` (the lower-cased image of a valid raw
scheme) is well-formed. -/
theorem wfScheme_map_lower {sch : Str}
    (h : (∃ c cs, sch = c :: cs ∧ isAlphaCh c = true) ∧ ∀ c ∈ sch, schemeCh c = true) :
    WfScheme (sch.map lowerCh) := by
  obtain ⟨⟨c, cs, rfl, hal⟩, hch⟩ := h
  refine ⟨⟨lowerCh c, cs.map lowerCh, by simp, by rw [lowerCh_alpha]; exact hal⟩, ?_, ?_⟩
  · intro x hx
    obtain ⟨y, hy, rfl⟩ := List.mem_map.mp hx
    rw [lowerCh_schemeCh]
    exact hch y hy
  · rw [List.map_map]
    apply List.map_congr_left
    intro x _
    exact lowerCh_idem x

theorem parseHostM_self {a h : Str} (he : parseHostM a = some h) :
    h = a ∧ parseHostM h = some h := by
  unfold parseHostM at he
  by_cases h1 : a.any (fun c => !hostCh c) = true
  · rw [if_pos h1] at he
    exact absurd he (by simp)
  · rw [if_neg h1] at he
    by_cases h2 : a.contains ':' = true
    · rw [if_pos h2] at he
      by_cases h3 : (afterLastColon a).all isDigitCh = true
      · rw [if_pos h3] at he
        have : h = a := by simpa using he.symm
        subst this
        refine ⟨rfl, ?_⟩
        unfold parseHostM
        rw [if_neg h1, if_pos h2, if_pos h3]
      · rw [if_neg h3] at he
        exact absurd he (by simp)
    · rw [if_neg h2] at he
      have : h = a := by simpa using he.symm
      subst this
      refine ⟨rfl, ?_⟩
      unfold parseHostM
      rw [if_neg h1, if_neg h2]

theorem parseAuthorityM_self {a h : Str} (he : parseAuthorityM a = some h) :
    h = a ∧ parseAuthorityM h = some h ∧ (∀ c ∈ h, hostCh c = true) ∧ '/' ∉ h := by
  unfold parseAuthorityM at he
  by_cases h1 : a.contains '@' = true
  · rw [if_pos h1] at he
    exact absurd he (by simp)
  · rw [if_neg h1] at he
    obtain ⟨rfl, hp⟩ := parseHostM_self he
    have hch : ∀ c ∈ h, hostCh c = true := by
      intro c hc
      by_contra hcn
      have hany : h.any (fun c => !hostCh c) = true :=
        List.any_eq_true.mpr ⟨c, hc, by simp [hcn]⟩
      unfold parseHostM at hp
      rw [if_pos hany] at hp
      exact absurd hp (by simp)
    refine ⟨rfl, ?_, hch, ?_⟩
    · unfold parseAuthorityM
      rw [if_neg h1]
      exact hp
    · intro hsl
      have := hostCh_toNat (hch '/' hsl)
      have : ('/').toNat = 47 := by decide
      omega

theorem querySplit_force {A : Str} (h : '?' ∉ A) :
    querySplit (A ++ ['?']) = (A, [], true) := by
  unfold querySplit
  rw [if_pos]
  · rw [trimSuffixL_append]
  · rw [trimSuffixL_append, hasSuffixL_append]
    simp [h]

theorem querySplit_plain {A : Str} (h : '?' ∉ A) :
    querySplit A = (A, [], false) := by
  unfold querySplit
  rw [if_neg, cutListDrop_not_mem h]
  intro hc
  rw [Bool.and_eq_true] at hc
  exact h (hasSuffixL_singleton_mem hc.1)

/-- Field-level inversion of `parseInner` for results with a non-empty host:
such a result comes from the authority branch, so it is non-opaque, has
`omitHost = false`, a validated host, a `pathSafeCh` path, a well-formed or
empty scheme, and no fragment yet. -/
theorem parseInner_host_inv {t : Str} {u : GoURL} (h : parseInner t = some u)
    (hh : u.host ≠ []) :
    u.opq = [] ∧ u.omitHost = false ∧ parseAuthorityM u.host = some u.host ∧
      (∀ c ∈ u.path, pathSafeCh c = true) ∧ (u.scheme = [] ∨ WfScheme u.scheme) ∧
      u.frag = [] ∧ '/' ∉ u.host ∧ (∀ c ∈ u.host, hostCh c = true) ∧
      (∀ c ∈ u.scheme, schemeCh c = true) := by
  unfold parseInner at h
  split at h
  · exact absurd h (by simp)
  split at h
  · rename_i hstar
    injection h with h
    rw [← h] at hh
    exact absurd rfl hh
  split at h
  · exact absurd h (by simp)
  rename_i sch0 rest0 hgs
  simp only [] at h
  split at h
  · rename_i hopq
    injection h with h
    rw [← h] at hh
    exact absurd rfl hh
  split at h
  · exact absurd h (by simp)
  split at h
  · rename_i hauth
    split at h
    · exact absurd h (by simp)
    rename_i host hpa
    unfold setPathM at h
    split at h
    · rename_i hps
      injection h with h
      obtain ⟨rfl, hself, hch, hsl⟩ := parseAuthorityM_self hpa
      rw [← h] at hh ⊢
      refine ⟨rfl, rfl, hself, ?_, ?_, rfl, hsl, hch, ?_⟩
      · intro c hc
        exact List.all_eq_true.mp hps c hc
      · rcases getScheme_inv hgs with rfl | hwf
        · exact Or.inl rfl
        · exact Or.inr (wfScheme_map_lower hwf)
      · intro c hc
        rcases getScheme_inv hgs with rfl | hwf
        · simp at hc
        · obtain ⟨y, hy, rfl⟩ := List.mem_map.mp hc
          rw [lowerCh_schemeCh]
          exact hwf.2 y hy
    · exact absurd h (by simp)
  split at h
  · unfold setPathM at h
    split at h
    · injection h with h
      rw [← h] at hh
      exact absurd rfl hh
    · exact absurd h (by simp)
  · unfold setPathM at h
    split at h
    · injection h with h
      rw [← h] at hh
      exact absurd rfl hh
    · exact absurd h (by simp)

theorem parseURL_host_inv {s : Str} {u : GoURL} (h : parseURL s = some u)
    (hh : u.host ≠ []) :
    u.opq = [] ∧ u.omitHost = false ∧ parseAuthorityM u.host = some u.host ∧
      (∀ c ∈ u.path, pathSafeCh c = true) ∧ (u.scheme = [] ∨ WfScheme u.scheme) ∧
      (∀ c ∈ u.frag, fragSafeCh c = true) ∧ '/' ∉ u.host ∧
      (∀ c ∈ u.host, hostCh c = true) ∧ (∀ c ∈ u.scheme, schemeCh c = true) := by
  unfold parseURL at h
  simp only [] at h
  split at h
  · exact absurd h (by simp)
  rename_i u0 hinner
  split at h
  · rename_i hfrag
    injection h with h
    subst h
    obtain ⟨h1, h2, h3, h4, h5, h6, h7, h8, h9⟩ := parseInner_host_inv hinner hh
    exact ⟨h1, h2, h3, h4, h5, by simp [h6], h7, h8, h9⟩
  · split at h
    · rename_i hfs
      injection h with h
      rw [← h] at hh
      simp only [← h]
      obtain ⟨h1, h2, h3, h4, h5, _, h7, h8, h9⟩ := parseInner_host_inv hinner (by simpa using hh)
      exact ⟨h1, h2, h3, h4, h5, fun c hc => List.all_eq_true.mp hfs c hc, h7, h8, h9⟩
    · exact absurd h (by simp)

theorem getScheme_slash (rest : Str) : getScheme ('/' :: rest) = some ([], '/' :: rest) := by
  unfold getScheme
  simp only [getSchemeAux]
  rw [if_neg (by decide), if_neg (by decide), if_neg (by decide)]

theorem hasPrefixL_slash (x : Str) : hasPrefixL ('/' :: x) ['/'] = true := by
  simp [hasPrefixL, List.isPrefixOf]

theorem hasPrefixL_slash2 (x : Str) : hasPrefixL ('/' :: '/' :: x) ['/', '/'] = true := by
  simp [hasPrefixL, List.isPrefixOf]

theorem hasPrefixL_slash3_false {hc : Char} (x : Str) (h : hc ≠ '/') :
    hasPrefixL ('/' :: '/' :: hc :: x) ['/', '/', '/'] = false := by
  simp [hasPrefixL, List.isPrefixOf]
  exact fun he => absurd he.symm h


/-- Evaluation of `parseInner` on a canonical authority-form URL string, as
produced by `urlString` after normalization. -/
theorem parseInner_eval (sch host p1tail : Str) (fq : Bool)
    (hsch : sch = [] ∨ WfScheme sch)
    (hauth : parseAuthorityM host = some host)
    (hhne : host ≠ [])
    (hhch : ∀ c ∈ host, hostCh c = true)
    (hslh : '/' ∉ host)
    (hpt : ∀ c ∈ p1tail, pathSafeCh c = true) :
    parseInner ((if sch = [] then [] else sch ++ [':']) ++
        '/' :: '/' :: (host ++ '/' ::
          (p1tail ++ (if fq then ['?'] else [])))) =
      some ⟨sch, [], host, false, '/' :: p1tail, fq, [], []⟩ := by
  have hquery : '?' ∉ '/' :: '/' :: (host ++ '/' :: p1tail) := by
    intro hm
    simp only [List.mem_cons, List.mem_append] at hm
    rcases hm with h | h | h | h | h
    · exact absurd h.symm (by decide)
    · exact absurd h.symm (by decide)
    · have hb := hostCh_toNat (hhch _ h)
      have hq : ('?').toNat = 63 := by decide
      rw [hq] at hb
      omega
    · exact absurd h.symm (by decide)
    · have hb := pathSafeCh_toNat (hpt _ h)
      have hq : ('?').toNat = 63 := by decide
      rw [hq] at hb
      omega
  have hqsplit : querySplit ('/' :: '/' :: (host ++ '/' ::
      (p1tail ++ (if fq then ['?'] else [])))) =
      ('/' :: '/' :: (host ++ '/' :: p1tail), [], fq) := by
    cases fq with
    | true =>
      have he : ('/' : Char) :: '/' :: (host ++ '/' :: (p1tail ++ ['?'])) =
          ('/' :: '/' :: (host ++ '/' :: p1tail)) ++ ['?'] := by
        simp
      rw [if_pos rfl, he, querySplit_force hquery]
    | false =>
      rw [if_neg (by simp), List.append_nil]
      exact querySplit_plain hquery
  have hrest0all : ∀ c ∈ '/' :: '/' :: (host ++ '/' ::
      (p1tail ++ (if fq then ['?'] else []))), ctlCh c = false := by
    intro c hc
    simp only [List.mem_cons, List.mem_append] at hc
    rcases hc with hc | hc | hc | hc | hc
    · subst hc
      decide
    · subst hc
      decide
    · have hb := hostCh_toNat (hhch c hc)
      exact ctlCh_eq_false_of_ge (by omega) (by omega)
    · subst hc
      decide
    · rcases hc with hc | hc
      · have hb := pathSafeCh_toNat (hpt c hc)
        exact ctlCh_eq_false_of_ge (by omega) (by omega)
      · cases fq with
        | true =>
          rw [if_pos rfl] at hc
          simp at hc
          subst hc
          decide
        | false =>
          rw [if_neg (by simp)] at hc
          simp at hc
  obtain ⟨hc0, h', rfl⟩ : ∃ hc0 h', host = hc0 :: h' := by
    cases host with
    | nil => exact absurd rfl hhne
    | cons a b => exact ⟨a, b, rfl⟩
  have hc0ne : hc0 ≠ '/' := by
    intro he
    exact hslh (he ▸ List.mem_cons_self hc0 h')
  have hcond3 : ((decide ¬(([] : Str).map lowerCh = []) ||
      !hasPrefixL ('/' :: '/' :: (hc0 :: h' ++ '/' :: p1tail)) ['/', '/', '/']) &&
      hasPrefixL ('/' :: '/' :: (hc0 :: h' ++ '/' :: p1tail)) ['/', '/']) = true ∨ True :=
    Or.inr trivial
  have hsetp : List.all ('/' :: p1tail) pathSafeCh = true := by
    rw [List.all_eq_true]
    intro c hc
    rcases List.mem_cons.mp hc with rfl | hc
    · decide
    · exact hpt c hc
  have hpfx3 : ('/' : Char) :: '/' :: (hc0 :: h' ++ '/' :: p1tail) =
      '/' :: '/' :: hc0 :: (h' ++ '/' :: p1tail) := by simp
  rcases hsch with rfl | hwf
  · rw [if_pos rfl, List.nil_append]
    unfold parseInner
    rw [if_neg (by
      simp only [List.any_eq_true, not_exists, not_and]
      intro c hc
      simp [hrest0all c hc])]
    rw [if_neg (by
      intro he
      injection he with h1 _
      exact absurd h1 (by decide))]
    rw [getScheme_slash]
    simp only [List.map_nil, hqsplit]
    rw [if_neg (by simp [hasPrefixL_slash])]
    rw [if_neg (by simp [hasPrefixL_slash])]
    rw [if_pos (by
      rw [Bool.and_eq_true]
      refine ⟨?_, hasPrefixL_slash2 _⟩
      rw [Bool.or_eq_true_iff]
      right
      rw [hpfx3, hasPrefixL_slash3_false _ hc0ne]
      simp)]
    simp only [List.drop_succ_cons, List.drop_zero]
    rw [cutListKeep_append _ hslh, hauth]
    simp [setPathM, hsetp]
  · have hne : sch ≠ [] := by
      obtain ⟨⟨a, as, rfl, _⟩, _, _⟩ := hwf
      simp
    rw [if_neg hne]
    have hshape : (sch ++ [':']) ++ '/' :: '/' :: (hc0 :: h' ++ '/' ::
        (p1tail ++ (if fq then ['?'] else []))) =
        sch ++ ':' :: ('/' :: '/' :: (hc0 :: h' ++ '/' ::
          (p1tail ++ (if fq then ['?'] else [])))) := by
      simp
    rw [hshape]
    unfold parseInner
    rw [if_neg (by
      simp only [List.any_eq_true, not_exists, not_and]
      intro c hc
      have hcm : ctlCh c = false := by
        rcases List.mem_append.mp hc with hc | hc
        · have hb := schemeCh_toNat (hwf.2.1 c hc)
          exact ctlCh_eq_false_of_ge (by omega) (by omega)
        · rcases List.mem_cons.mp hc with rfl | hc
          · decide
          · exact hrest0all c hc
      simp [hcm])]
    rw [if_neg (by
      obtain ⟨⟨a, as, hsa, hal⟩, _, _⟩ := hwf
      rw [hsa]
      intro he
      simp only [List.cons_append] at he
      injection he with h1 _
      have hb := isAlphaCh_bounds (h1 ▸ hal)
      have h42 : ('*').toNat = 42 := by decide
      omega)]
    rw [getScheme_append hwf]
    simp only [hwf.2.2, hqsplit]
    rw [if_neg (by simp [hasPrefixL_slash])]
    rw [if_neg (by simp [hasPrefixL_slash])]
    rw [if_pos (by
      rw [Bool.and_eq_true]
      refine ⟨?_, hasPrefixL_slash2 _⟩
      rw [Bool.or_eq_true_iff]
      left
      simp [hne])]
    simp only [List.drop_succ_cons, List.drop_zero]
    rw [cutListKeep_append _ hslh, hauth]
    simp [setPathM, hsetp]

/-- `urlString` on a non-opaque URL with a host, rendered path `'/'::p1tail`
and empty raw query. -/
theorem urlString_hosted (u : GoURL) (hopq : u.opq = []) (hom : u.omitHost = false)
    (hh : u.host ≠ []) (hq : u.rawQuery = []) (p1tail : Str)
    (hrender : (if u.path ≠ [] && u.path.head? ≠ some '/' && u.host ≠ [] then '/' :: u.path
                else u.path) = '/' :: p1tail) :
    urlString u =
      ((if u.scheme = [] then [] else u.scheme ++ [':']) ++
        '/' :: '/' :: (u.host ++ '/' ::
          (p1tail ++ (if u.forceQuery then ['?'] else [])))) ++
        (if u.frag ≠ [] then '#' :: u.frag else []) := by
  unfold urlString
  simp only [hopq, hom, hq, hrender]
  by_cases hs : u.scheme = []
  · simp [hs, hh, List.append_assoc]
  · simp [hs, hh, List.append_assoc]

theorem pairFst {a b : Str} : ((a, b) : Str × Str).1 = a := rfl

theorem pairSnd {a b : Str} : ((a, b) : Str × Str).2 = b := rfl

/-- Round trip: parsing the canonical authority-form string (as printed by
`urlString` after normalization) recovers the URL record. -/
theorem parseURL_eval (sch host p1tail frag : Str) (fq : Bool)
    (hsch : sch = [] ∨ WfScheme sch)
    (hauth : parseAuthorityM host = some host)
    (hhne : host ≠ [])
    (hhch : ∀ c ∈ host, hostCh c = true)
    (hslh : '/' ∉ host)
    (hpt : ∀ c ∈ p1tail, pathSafeCh c = true)
    (hfr : ∀ c ∈ frag, fragSafeCh c = true) :
    parseURL (((if sch = [] then [] else sch ++ [':']) ++
        '/' :: '/' :: (host ++ '/' ::
          (p1tail ++ (if fq then ['?'] else [])))) ++
        (if frag ≠ [] then '#' :: frag else [])) =
      some ⟨sch, [], host, false, '/' :: p1tail, fq, [], frag⟩ := by
  have hB : '#' ∉ ((if sch = [] then [] else sch ++ [':']) ++
      '/' :: '/' :: (host ++ '/' :: (p1tail ++ (if fq then ['?'] else [])))) := by
    intro hm
    have h35 : ('#').toNat = 35 := by decide
    rcases List.mem_append.mp hm with hm | hm
    · rcases hsch with rfl | hwf
      · rw [if_pos rfl] at hm
        simp at hm
      · have hne : sch ≠ [] := by
          obtain ⟨⟨a, as, rfl, _⟩, _, _⟩ := hwf
          simp
        rw [if_neg hne] at hm
        rcases List.mem_append.mp hm with hm | hm
        · have hb := schemeCh_toNat (hwf.2.1 _ hm)
          omega
        · simp at hm
    · simp only [List.mem_cons, List.mem_append] at hm
      rcases hm with hm | hm | hm | hm | hm
      · exact absurd hm.symm (by decide)
      · exact absurd hm.symm (by decide)
      · have hb := hostCh_toNat (hhch _ hm)
        omega
      · exact absurd hm.symm (by decide)
      · rcases hm with hm | hm
        · have hb := pathSafeCh_toNat (hpt _ hm)
          omega
        · cases fq with
          | true =>
            rw [if_pos rfl] at hm
            simp at hm
          | false =>
            rw [if_neg (by simp)] at hm
            simp at hm
  unfold parseURL
  by_cases hf : frag = []
  · subst hf
    have he : (if ([] : Str) ≠ [] then '#' :: ([] : Str) else []) = [] := by simp
    rw [he, List.append_nil]
    simp only [cutListDrop_not_mem hB, pairFst, pairSnd]
    rw [parseInner_eval sch host p1tail fq hsch hauth hhne hhch hslh hpt]
    simp
  · rw [if_pos hf]
    simp only [cutListDrop_append frag hB, pairFst, pairSnd]
    rw [parseInner_eval sch host p1tail fq hsch hauth hhne hhch hslh hpt]
    simp only []
    rw [if_neg hf, if_pos (List.all_eq_true.mpr hfr)]

/-!
## Segment structure of cleaned paths

A cleaned rooted path is `/seg1/.../segn` where every segment is non-empty,
slash-free and not `.` or `..`.  `segsToPath` renders such a segment list.
-/

def PlainSeg (s : Str) : Prop := s ≠ [] ∧ s ≠ dotSeg ∧ s ≠ dotdotSeg ∧ '/' ∉ s

def segsToPath : List Str → Str
  | [] => []
  | s :: ss => '/' :: (s ++ segsToPath ss)

theorem segsToPath_append (ss ts : List Str) :
    segsToPath (ss ++ ts) = segsToPath ss ++ segsToPath ts := by
  induction ss with
  | nil => simp [segsToPath]
  | cons s rest ih => simp [segsToPath, ih]

theorem segsToPath_ne_nil {ss : List Str} (h : ss ≠ []) : segsToPath ss ≠ [] := by
  cases ss with
  | nil => exact absurd rfl h
  | cons s t => simp [segsToPath]

theorem segsToPath_head {s : Str} {ss : List Str} :
    segsToPath (s :: ss) = '/' :: (s ++ segsToPath ss) := rfl

theorem splitOnCh_ne_nil (sep : Char) (l : Str) : splitOnCh sep l ≠ [] := by
  cases l with
  | nil => simp [splitOnCh]
  | cons c t =>
    by_cases hc : c = sep
    · simp [splitOnCh, hc]
    · simp only [splitOnCh, if_neg hc]
      cases hs : splitOnCh sep t with
      | nil => simp
      | cons a b => simp

theorem splitOnCh_no_sep {sep : Char} {l : Str} (h : sep ∉ l) :
    splitOnCh sep l = [l] := by
  induction l with
  | nil => rfl
  | cons c t ih =>
    have hc : c ≠ sep := fun he => h (he ▸ List.mem_cons_self c t)
    have ht : sep ∉ t := fun hm => h (List.mem_cons_of_mem _ hm)
    simp only [splitOnCh, if_neg hc, ih ht]

theorem splitOnCh_seg {sep : Char} {s : Str} (r : Str) (h : sep ∉ s) :
    splitOnCh sep (s ++ sep :: r) = s :: splitOnCh sep r := by
  induction s with
  | nil => simp [splitOnCh]
  | cons c t ih =>
    have hc : c ≠ sep := fun he => h (he ▸ List.mem_cons_self c t)
    have ht : sep ∉ t := fun hm => h (List.mem_cons_of_mem _ hm)
    simp only [List.cons_append, splitOnCh, if_neg hc, List.append_eq, ih ht]

theorem splitOnCh_segsToPath {ss : List Str} (h : ∀ s ∈ ss, '/' ∉ s) :
    splitOnCh '/' (segsToPath ss) = [] :: ss := by
  induction ss with
  | nil => rfl
  | cons s rest ih =>
    have hs : '/' ∉ s := h s (by simp)
    have hrest : ∀ x ∈ rest, '/' ∉ x := fun x hx => h x (by simp [hx])
    rw [segsToPath_head]
    show splitOnCh '/' ('/' :: (s ++ segsToPath rest)) = [] :: s :: rest
    simp only [splitOnCh, if_pos rfl, if_true]
    cases rest with
    | nil =>
      simp only [segsToPath, List.append_nil]
      rw [splitOnCh_no_sep hs]
    | cons s2 rest2 =>
      rw [segsToPath_head, splitOnCh_seg _ hs]
      have hi := ih hrest
      rw [segsToPath_head] at hi
      simp only [splitOnCh, if_pos rfl, if_true] at hi
      injection hi with _ h2
      rw [h2]

theorem foldl_cleanStep_plain (rooted : Bool) :
    ∀ (ss : List Str) (stack : List Str),
      (∀ s ∈ ss, s ≠ [] ∧ s ≠ dotSeg ∧ s ≠ dotdotSeg) →
      List.foldl (cleanStep rooted) stack ss = ss.reverse ++ stack := by
  intro ss
  induction ss with
  | nil => intro stack _; rfl
  | cons s rest ih =>
    intro stack h
    obtain ⟨h1, h2, h3⟩ := h s (by simp)
    have hstep : cleanStep rooted stack s = s :: stack := by
      unfold cleanStep
      rw [if_neg h1, if_neg h2, if_neg h3]
    rw [List.foldl_cons, hstep, ih (s :: stack) (fun x hx => h x (by simp [hx]))]
    simp

theorem joinSep_eq {ss : List Str} (h : ss ≠ []) : '/' :: joinSep ss = segsToPath ss := by
  induction ss with
  | nil => exact absurd rfl h
  | cons s rest ih =>
    cases rest with
    | nil => simp [joinSep, segsToPath]
    | cons s2 rest2 =>
      show '/' :: (s ++ '/' :: joinSep (s2 :: rest2)) = '/' :: (s ++ segsToPath (s2 :: rest2))
      rw [ih (by simp)]

/-- `path.Clean` is the identity on a rendered plain segment list. -/
theorem pathClean_segsToPath {ss : List Str} (hne : ss ≠ []) (h : ∀ s ∈ ss, PlainSeg s) :
    pathClean (segsToPath ss) = segsToPath ss := by
  obtain ⟨s0, rest, rfl⟩ : ∃ s0 rest, ss = s0 :: rest := by
    cases ss with
    | nil => exact absurd rfl hne
    | cons a b => exact ⟨a, b, rfl⟩
  have hhead : (segsToPath (s0 :: rest)).head? = some '/' := by
    rw [segsToPath_head]
    rfl
  have hr : decide ((segsToPath (s0 :: rest)).head? = some '/') = true := by
    rw [hhead]
    decide
  unfold pathClean cleanSegs
  rw [if_neg (by rw [segsToPath_head]; simp)]
  simp only [hr]
  have hsplit : splitOnCh '/' (segsToPath (s0 :: rest)) = [] :: s0 :: rest :=
    splitOnCh_segsToPath (fun s hs => (h s hs).2.2.2)
  rw [hsplit, if_pos hhead, List.foldl_cons]
  have hstep0 : cleanStep true [] [] = [] := by
    unfold cleanStep
    rw [if_pos rfl]
  rw [hstep0, foldl_cleanStep_plain true (s0 :: rest) []
    (fun s hs => ⟨(h s hs).1, (h s hs).2.1, (h s hs).2.2.1⟩)]
  rw [List.append_nil, List.reverse_reverse]
  exact joinSep_eq hne

theorem splitOnCh_not_mem {sep : Char} {l : Str} :
    ∀ s ∈ splitOnCh sep l, sep ∉ s := by
  induction l with
  | nil =>
    intro s hs
    simp [splitOnCh] at hs
    simp [hs]
  | cons c t ih =>
    intro s hs
    by_cases hc : c = sep
    · simp only [splitOnCh, if_pos hc] at hs
      rcases List.mem_cons.mp hs with rfl | hs
      · simp
      · exact ih s hs
    · simp only [splitOnCh, if_neg hc] at hs
      cases hsp : splitOnCh sep t with
      | nil => exact absurd hsp (splitOnCh_ne_nil sep t)
      | cons a b =>
        rw [hsp] at hs
        rcases List.mem_cons.mp hs with rfl | hs
        · intro hm
          rcases List.mem_cons.mp hm with he | hm
          · exact hc he.symm
          · exact ih a (by rw [hsp]; simp) hm
        · exact ih s (by rw [hsp]; simp [hs])

theorem splitOnCh_chars {sep : Char} {l : Str} :
    ∀ s ∈ splitOnCh sep l, ∀ c ∈ s, c ∈ l := by
  induction l with
  | nil =>
    intro s hs
    simp [splitOnCh] at hs
    simp [hs]
  | cons d t ih =>
    intro s hs c hcs
    by_cases hd : d = sep
    · simp only [splitOnCh, if_pos hd] at hs
      rcases List.mem_cons.mp hs with rfl | hs
      · simp at hcs
      · exact List.mem_cons_of_mem _ (ih s hs c hcs)
    · simp only [splitOnCh, if_neg hd] at hs
      cases hsp : splitOnCh sep t with
      | nil => exact absurd hsp (splitOnCh_ne_nil sep t)
      | cons a b =>
        rw [hsp] at hs
        rcases List.mem_cons.mp hs with rfl | hs
        · rcases List.mem_cons.mp hcs with rfl | hcs
          · simp
          · exact List.mem_cons_of_mem _ (ih a (by rw [hsp]; simp) c hcs)
        · exact List.mem_cons_of_mem _ (ih s (by rw [hsp]; simp [hs]) c hcs)

theorem foldl_cleanStep_plainSeg :
    ∀ (segs stack : List Str), (∀ s ∈ segs, '/' ∉ s) → (∀ s ∈ stack, PlainSeg s) →
      ∀ s ∈ List.foldl (cleanStep true) stack segs, PlainSeg s := by
  intro segs
  induction segs with
  | nil =>
    intro stack _ hst
    simpa using hst
  | cons seg rest ih =>
    intro stack hsegs hst
    rw [List.foldl_cons]
    refine ih _ (fun s hs => hsegs s (by simp [hs])) ?_
    by_cases h1 : seg = []
    · have he : cleanStep true stack seg = stack := by simp [cleanStep, h1]
      rw [he]
      exact hst
    · by_cases h2 : seg = dotSeg
      · have he : cleanStep true stack seg = stack := by
          simp [cleanStep, h1, h2, dotSeg]
        rw [he]
        exact hst
      · by_cases h3 : seg = dotdotSeg
        · cases stack with
          | nil =>
            have he : cleanStep true [] seg = [] := by
              unfold cleanStep
              rw [if_neg h1, if_neg h2, if_pos h3]
              rfl
            rw [he]
            intro s hs
            simp at hs
          | cons top rest2 =>
            have htop : top ≠ dotdotSeg := (hst top (by simp)).2.2.1
            have he : cleanStep true (top :: rest2) seg = rest2 := by
              unfold cleanStep
              rw [if_neg h1, if_neg h2, if_pos h3]
              show (if top = dotdotSeg then dotdotSeg :: top :: rest2 else rest2) = rest2
              rw [if_neg htop]
            rw [he]
            intro s hs
            exact hst s (by simp [hs])
        · have he : cleanStep true stack seg = seg :: stack := by
            simp [cleanStep, h1, h2, h3]
          rw [he]
          intro s hs
          rcases List.mem_cons.mp hs with rfl | hs
          · exact ⟨h1, h2, h3, hsegs s (by simp)⟩
          · exact hst s hs

/-- `path.Clean` of a rooted path is either `/` or a rendered plain
segment list. -/
theorem pathClean_rooted (xs : Str) :
    pathClean ('/' :: xs) = ['/'] ∨
    ∃ ss, ss ≠ [] ∧ (∀ s ∈ ss, PlainSeg s) ∧ pathClean ('/' :: xs) = segsToPath ss := by
  have hhead : ('/' :: xs).head? = some '/' := rfl
  unfold pathClean cleanSegs
  rw [if_neg (by simp), if_pos hhead]
  have hr : decide (('/' :: xs).head? = some '/') = true := by
    rw [hhead]
    decide
  simp only [hr]
  have hsp : splitOnCh '/' ('/' :: xs) = [] :: splitOnCh '/' xs := by
    simp [splitOnCh]
  rw [hsp, List.foldl_cons]
  have hstep0 : cleanStep true [] [] = [] := by
    unfold cleanStep
    rw [if_pos rfl]
  rw [hstep0]
  have hplain : ∀ s ∈ (List.foldl (cleanStep true) [] (splitOnCh '/' xs)).reverse,
      PlainSeg s := by
    intro s hs
    exact foldl_cleanStep_plainSeg (splitOnCh '/' xs) []
      (fun t ht => splitOnCh_not_mem t ht) (by simp) s (List.mem_reverse.mp hs)
  cases hST : (List.foldl (cleanStep true) [] (splitOnCh '/' xs)).reverse with
  | nil =>
    left
    rfl
  | cons a b =>
    right
    rw [hST] at hplain
    exact ⟨a :: b, by simp, hplain, joinSep_eq (by simp)⟩

theorem joinSep_chars {P : Char → Bool} (hsl : P '/' = true) :
    ∀ ss : List Str, (∀ s ∈ ss, ∀ c ∈ s, P c = true) → ∀ c ∈ joinSep ss, P c = true := by
  intro ss
  induction ss with
  | nil =>
    intro _ c hc
    simp [joinSep] at hc
  | cons s rest ih =>
    intro h c hc
    cases rest with
    | nil =>
      simp only [joinSep] at hc
      exact h s (by simp) c hc
    | cons s2 rest2 =>
      show P c = true
      have hj : joinSep (s :: s2 :: rest2) = s ++ '/' :: joinSep (s2 :: rest2) := rfl
      rw [hj] at hc
      rcases List.mem_append.mp hc with hc | hc
      · exact h s (by simp) c hc
      · rcases List.mem_cons.mp hc with rfl | hc
        · exact hsl
        · exact ih (fun t ht => h t (by simp [ht])) c hc

theorem foldl_cleanStep_chars {P : Char → Bool} (hdot : P '.' = true) (rooted : Bool) :
    ∀ (segs stack : List Str), (∀ s ∈ segs, ∀ c ∈ s, P c = true) →
      (∀ s ∈ stack, ∀ c ∈ s, P c = true) →
      ∀ s ∈ List.foldl (cleanStep rooted) stack segs, ∀ c ∈ s, P c = true := by
  intro segs
  induction segs with
  | nil =>
    intro stack _ hst
    simpa using hst
  | cons seg rest ih =>
    intro stack hsegs hst
    rw [List.foldl_cons]
    refine ih _ (fun s hs => hsegs s (by simp [hs])) ?_
    intro s hs
    unfold cleanStep at hs
    by_cases h1 : seg = []
    · rw [if_pos h1] at hs
      exact hst s hs
    · rw [if_neg h1] at hs
      by_cases h2 : seg = dotSeg
      · rw [if_pos h2] at hs
        exact hst s hs
      · rw [if_neg h2] at hs
        by_cases h3 : seg = dotdotSeg
        · rw [if_pos h3] at hs
          cases stack with
          | nil =>
            have hred : (match ([] : List Str) with
                | [] => if rooted = true then [] else [dotdotSeg]
                | top :: rest => if top = dotdotSeg then dotdotSeg :: top :: rest
                  else rest) = (if rooted = true then [] else [dotdotSeg]) := rfl
            rw [hred] at hs
            by_cases hr : rooted = true
            · rw [if_pos hr] at hs
              simp at hs
            · rw [if_neg hr] at hs
              have : s = dotdotSeg := by simpa using hs
              subst this
              intro c hc
              have : c = '.' := by
                rcases List.mem_cons.mp hc with rfl | hc
                · rfl
                · simpa [dotdotSeg] using hc
              rw [this]
              exact hdot
          | cons top rest2 =>
            have hred : (match top :: rest2 with
                | [] => if rooted = true then [] else [dotdotSeg]
                | top :: rest => if top = dotdotSeg then dotdotSeg :: top :: rest
                  else rest) = (if top = dotdotSeg then dotdotSeg :: top :: rest2
                  else rest2) := rfl
            rw [hred] at hs
            by_cases ht : top = dotdotSeg
            · rw [if_pos ht] at hs
              rcases List.mem_cons.mp hs with rfl | hs
              · intro c hc
                have : c = '.' := by
                  rcases List.mem_cons.mp hc with rfl | hc
                  · rfl
                  · simpa [dotdotSeg] using hc
                rw [this]
                exact hdot
              · exact hst s hs
            · rw [if_neg ht] at hs
              exact hst s (by simp [hs])
        · rw [if_neg h3] at hs
          rcases List.mem_cons.mp hs with rfl | hs
          · exact hsegs s (by simp)
          · exact hst s hs

theorem pathClean_chars {P : Char → Bool} {l : Str} (hl : ∀ c ∈ l, P c = true)
    (hsl : P '/' = true) (hdot : P '.' = true) : ∀ c ∈ pathClean l, P c = true := by
  unfold pathClean cleanSegs
  by_cases hnil : l = []
  · rw [if_pos hnil]
    intro c hc
    have : c = '.' := by simpa [dotSeg] using hc
    rw [this]
    exact hdot
  · rw [if_neg hnil]
    have hfold : ∀ s ∈ (List.foldl (cleanStep (decide (l.head? = some '/'))) []
        (splitOnCh '/' l)).reverse, ∀ c ∈ s, P c = true := by
      intro s hs
      exact foldl_cleanStep_chars hdot _ (splitOnCh '/' l) []
        (fun t ht c hc => hl c (splitOnCh_chars t ht c hc)) (by simp) s
        (List.mem_reverse.mp hs)
    by_cases hr : l.head? = some '/'
    · rw [if_pos hr]
      intro c hc
      rcases List.mem_cons.mp hc with rfl | hc
      · exact hsl
      · exact joinSep_chars hsl _ hfold c hc
    · rw [if_neg hr]
      by_cases he : (List.foldl (cleanStep (decide (l.head? = some '/'))) []
          (splitOnCh '/' l)).reverse = []
      · rw [if_pos he]
        intro c hc
        have : c = '.' := by simpa [dotSeg] using hc
        rw [this]
        exact hdot
      · rw [if_neg he]
        exact joinSep_chars hsl _ hfold

theorem joinBuf_chars {P : Char → Bool} (hsl : P '/' = true) :
    ∀ (elems : List Str) (buf : Str), (∀ s ∈ elems, ∀ c ∈ s, P c = true) →
      (∀ c ∈ buf, P c = true) →
      ∀ c ∈ elems.foldl (fun buf e => if buf = [] then e else buf ++ '/' :: e) buf,
        P c = true := by
  intro elems
  induction elems with
  | nil =>
    intro buf _ hbuf
    simpa using hbuf
  | cons e rest ih =>
    intro buf helems hbuf
    rw [List.foldl_cons]
    refine ih _ (fun s hs => helems s (by simp [hs])) ?_
    by_cases hb : buf = []
    · rw [if_pos hb]
      exact helems e (by simp)
    · rw [if_neg hb]
      intro c hc
      rcases List.mem_append.mp hc with hc | hc
      · exact hbuf c hc
      · rcases List.mem_cons.mp hc with rfl | hc
        · exact hsl
        · exact helems e (by simp) c hc

theorem pathJoin_chars {P : Char → Bool} {elems : List Str}
    (h : ∀ s ∈ elems, ∀ c ∈ s, P c = true) (hsl : P '/' = true) (hdot : P '.' = true) :
    ∀ c ∈ pathJoin elems, P c = true := by
  unfold pathJoin joinBuf
  by_cases hb : elems.foldl (fun buf e => if buf = [] then e else buf ++ '/' :: e) [] = []
  · rw [if_pos hb]
    intro c hc
    simp at hc
  · rw [if_neg hb]
    exact pathClean_chars (joinBuf_chars hsl elems [] h (by simp)) hsl hdot

theorem trimPrefixL_sub {l p : Str} : ∀ c ∈ trimPrefixL l p, c ∈ l := by
  unfold trimPrefixL
  split
  · exact fun c hc => List.drop_subset _ _ hc
  · exact fun c hc => hc

theorem trimSuffixL_sub {l s : Str} : ∀ c ∈ trimSuffixL l s, c ∈ l := by
  unfold trimSuffixL
  split
  · exact fun c hc => List.take_subset _ _ hc
  · exact fun c hc => hc

theorem resolvePath_chars {P : Char → Bool} {p : Str} (hp : ∀ c ∈ p, P c = true)
    (hsl : P '/' = true) (hdot : P '.' = true)
    (hv : P 'v' = true) (h1 : P '1' = true) (hcz : P 'c' = true) (hhz : P 'h' = true)
    (haz : P 'a' = true) (htz : P 't' = true) (hoz : P 'o' = true) (hmz : P 'm' = true)
    (hpz : P 'p' = true) (hlz : P 'l' = true) (hez : P 'e' = true) (hiz : P 'i' = true)
    (hnz : P 'n' = true) (hsz : P 's' = true) :
    ∀ c ∈ resolvePath p, P c = true := by
  unfold resolvePath
  have hc1 : ∀ c ∈ pathClean ('/' :: trimPrefixL p ['/']), P c = true := by
    refine pathClean_chars ?_ hsl hdot
    intro c hc
    rcases List.mem_cons.mp hc with rfl | hc
    · exact hsl
    · exact hp c (trimPrefixL_sub c hc)
  have hc2 : ∀ c ∈ trimSuffixL (pathClean ('/' :: trimPrefixL p ['/'])) chatCompletionsSfx,
      P c = true := fun c hc => hc1 c (trimSuffixL_sub c hc)
  have hv1 : ∀ c ∈ ("v1".data : Str), P c = true := by
    intro c hc
    rcases List.mem_cons.mp hc with rfl | hc
    · exact hv
    · have : c = '1' := by simpa using hc
      rw [this]
      exact h1
  have hc3 : ∀ c ∈ (if hasSuffixL (trimSuffixL (pathClean ('/' :: trimPrefixL p ['/']))
      chatCompletionsSfx) slashV1 then trimSuffixL (pathClean ('/' :: trimPrefixL p ['/']))
      chatCompletionsSfx
      else pathJoin [trimSuffixL (pathClean ('/' :: trimPrefixL p ['/']))
        chatCompletionsSfx, "v1".data]), P c = true := by
    split
    · exact hc2
    · refine pathJoin_chars ?_ hsl hdot
      intro s hs
      rcases List.mem_cons.mp hs with rfl | hs
      · exact hc2
      · have : s = "v1".data := by simpa using hs
        rw [this]
        exact hv1
  refine pathJoin_chars ?_ hsl hdot
  intro s hs
  rcases List.mem_cons.mp hs with rfl | hs
  · exact hc3
  · rcases List.mem_cons.mp hs with rfl | hs
    · intro c hc
      simp only [List.mem_cons] at hc
      rcases hc with rfl | rfl | rfl | rfl | hc
      · exact hcz
      · exact hhz
      · exact haz
      · exact htz
      · simp at hc
    · have : s = "completions".data := by simpa using hs
      rw [this]
      intro c hc
      simp only [List.mem_cons] at hc
      rcases hc with rfl | rfl | rfl | rfl | rfl | rfl | rfl | rfl | rfl | rfl | rfl | hc
      · exact hcz
      · exact hoz
      · exact hmz
      · exact hpz
      · exact hlz
      · exact hez
      · exact htz
      · exact hiz
      · exact hoz
      · exact hnz
      · exact hsz
      · simp at hc

theorem joinBuf_two {a b : Str} (ha : a ≠ []) : joinBuf [a, b] = a ++ '/' :: b := by
  have h1 : joinBuf [a, b] = if a = [] then b else a ++ '/' :: b := rfl
  rw [h1, if_neg ha]

theorem joinBuf_three {a b c : Str} (ha : a ≠ []) :
    joinBuf [a, b, c] = a ++ '/' :: b ++ '/' :: c := by
  have h1 : joinBuf [a, b, c] =
      if (if a = [] then b else a ++ '/' :: b) = [] then c
      else (if a = [] then b else a ++ '/' :: b) ++ '/' :: c := rfl
  rw [h1, if_neg ha, if_neg (by simp)]

theorem pathJoin_two {a b : Str} (ha : a ≠ []) :
    pathJoin [a, b] = pathClean (a ++ '/' :: b) := by
  unfold pathJoin
  rw [joinBuf_two ha, if_neg (by simp)]

theorem pathJoin_three {a b c : Str} (ha : a ≠ []) :
    pathJoin [a, b, c] = pathClean (a ++ '/' :: b ++ '/' :: c) := by
  unfold pathJoin
  rw [joinBuf_three ha, if_neg (by simp)]

theorem plainSeg_v1 : PlainSeg "v1".data := by
  unfold PlainSeg
  refine ⟨by decide, by decide, by decide, by decide⟩

theorem plainSeg_chat : PlainSeg "chat".data := by
  unfold PlainSeg
  refine ⟨by decide, by decide, by decide, by decide⟩

theorem plainSeg_completions : PlainSeg "completions".data := by
  unfold PlainSeg
  refine ⟨by decide, by decide, by decide, by decide⟩

theorem segsToPath_concat (ss : List Str) (b : Str) :
    segsToPath (ss ++ [b]) = segsToPath ss ++ '/' :: b := by
  rw [segsToPath_append]
  simp [segsToPath]

theorem segsToPath_concat2 (ss : List Str) (b c : Str) :
    segsToPath (ss ++ [b, c]) = segsToPath ss ++ '/' :: b ++ '/' :: c := by
  rw [segsToPath_append]
  simp [segsToPath, List.append_assoc]

theorem segsToPath_cc (ss : List Str) :
    segsToPath (ss ++ ["chat".data, "completions".data]) =
      segsToPath ss ++ chatCompletionsSfx := by
  rw [segsToPath_append]
  have h : segsToPath ["chat".data, "completions".data] = chatCompletionsSfx := by decide
  rw [h]

theorem trimPrefixL_slash (x : Str) : trimPrefixL ('/' :: x) ['/'] = x :=
  trimPrefixL_append ['/'] x

theorem pathJoin_plain2 {ss : List Str} {b : Str} (hne : ss ≠ [])
    (hpl : ∀ s ∈ ss, PlainSeg s) (hb : PlainSeg b) :
    pathJoin [segsToPath ss, b] = segsToPath (ss ++ [b]) := by
  rw [pathJoin_two (segsToPath_ne_nil hne), ← segsToPath_concat]
  refine pathClean_segsToPath (by simp) ?_
  intro s hs
  rcases List.mem_append.mp hs with hs | hs
  · exact hpl s hs
  · rw [List.mem_singleton.mp hs]
    exact hb

theorem pathJoin_plain3 {ss : List Str} {b c : Str} (hne : ss ≠ [])
    (hpl : ∀ s ∈ ss, PlainSeg s) (hb : PlainSeg b) (hc : PlainSeg c) :
    pathJoin [segsToPath ss, b, c] = segsToPath (ss ++ [b, c]) := by
  rw [pathJoin_three (segsToPath_ne_nil hne), ← segsToPath_concat2]
  refine pathClean_segsToPath (by simp) ?_
  intro s hs
  rcases List.mem_append.mp hs with hs | hs
  · exact hpl s hs
  · rcases List.mem_cons.mp hs with rfl | hs
    · exact hb
    · rw [List.mem_singleton.mp hs]
      exact hc

/-- A prefix of a rendered plain segment list that ends exactly where a
rendered segment list begins is itself a rendered plain segment list. -/
theorem segsToPath_split :
    ∀ (ss : List Str), (∀ s ∈ ss, PlainSeg s) →
      ∀ (t : Str) (ts : List Str), ts ≠ [] → t ≠ [] →
        segsToPath ss = t ++ segsToPath ts →
        ∃ ss1, ss1 ≠ [] ∧ (∀ s ∈ ss1, PlainSeg s) ∧ t = segsToPath ss1 := by
  intro ss
  induction ss with
  | nil =>
    intro _ t ts hts ht heq
    exfalso
    have h1 : segsToPath ([] : List Str) = [] := rfl
    rw [h1] at heq
    rcases List.append_eq_nil.mp heq.symm with ⟨ht1, _⟩
    exact ht ht1
  | cons s rest ih =>
    intro hplain t ts hts ht heq
    rw [segsToPath_head] at heq
    cases t with
    | nil => exact absurd rfl ht
    | cons c t' =>
      rw [List.cons_append] at heq
      injection heq with h1 h2
      subst h1
      rcases List.append_eq_append_iff.mp h2 with ⟨a', ha1, ha2⟩ | ⟨c', hc1, hc2⟩
      · by_cases ha' : a' = []
        · subst ha'
          rw [List.append_nil] at ha1
          refine ⟨[t'], by simp, ?_, by simp [segsToPath]⟩
          intro x hx
          rw [List.mem_singleton.mp hx, ha1]
          exact hplain s (by simp)
        · obtain ⟨ss1, hne1, hpl1, ht1⟩ :=
            ih (fun x hx => hplain x (by simp [hx])) a' ts hts ha' ha2
          subst ha1
          refine ⟨s :: ss1, by simp, ?_, ?_⟩
          · intro x hx
            rcases List.mem_cons.mp hx with rfl | hx
            · exact hplain x (by simp)
            · exact hpl1 x hx
          · rw [segsToPath_head, ht1]
      · by_cases hc' : c' = []
        · subst hc'
          rw [List.append_nil] at hc1
          refine ⟨[t'], by simp, ?_, by simp [segsToPath]⟩
          intro x hx
          rw [List.mem_singleton.mp hx, ← hc1]
          exact hplain s (by simp)
        · exfalso
          have hsl : '/' ∈ c' := by
            cases hts2 : ts with
            | nil => exact absurd hts2 hts
            | cons u us =>
              rw [hts2, segsToPath_head] at hc2
              cases c' with
              | nil => exact absurd rfl hc'
              | cons c0 c0s =>
                rw [List.cons_append] at hc2
                injection hc2 with hc21 _
                rw [← hc21]
                simp
          have : '/' ∈ s := by
            rw [hc1]
            exact List.mem_append.mpr (Or.inr hsl)
          exact (hplain s (by simp)).2.2.2 this

theorem resolvePath_eq (p : Str) :
    resolvePath p =
      pathJoin [if hasSuffixL (trimSuffixL (pathClean ('/' :: trimPrefixL p ['/']))
            chatCompletionsSfx) slashV1 = true
          then trimSuffixL (pathClean ('/' :: trimPrefixL p ['/'])) chatCompletionsSfx
          else pathJoin [trimSuffixL (pathClean ('/' :: trimPrefixL p ['/']))
            chatCompletionsSfx, "v1".data],
        "chat".data, "completions".data] := rfl

/-- The path pipeline always yields either the unrooted
`v1/chat/completions` (when cleaning left exactly `/chat/completions`) or a
rooted plain path ending in `/v1/chat/completions`. -/
theorem resolvePath_cases (p : Str) :
    resolvePath p = "v1/chat/completions".data ∨
      ∃ ss, ss ≠ [] ∧ (∀ s ∈ ss, PlainSeg s) ∧
        hasSuffixL (segsToPath ss) slashV1 = true ∧
        resolvePath p = segsToPath ss ++ chatCompletionsSfx := by
  rw [resolvePath_eq]
  rcases pathClean_rooted (trimPrefixL p ['/']) with hc1 | ⟨ss, hne, hpl, hc1⟩
  · rw [hc1]
    right
    refine ⟨["v1".data], by simp, ?_, by decide, by decide⟩
    intro x hx
    rw [List.mem_singleton.mp hx]
    exact plainSeg_v1
  · rw [hc1]
    by_cases hsfx : hasSuffixL (segsToPath ss) chatCompletionsSfx = true
    · have hspl := trimSuffixL_eq_of_suffix hsfx
      by_cases htn : trimSuffixL (segsToPath ss) chatCompletionsSfx = []
      · rw [htn]
        left
        decide
      · have hsp : segsToPath ss =
            trimSuffixL (segsToPath ss) chatCompletionsSfx ++
              segsToPath ["chat".data, "completions".data] := by
          conv_lhs => rw [← hspl]
          have h : segsToPath ["chat".data, "completions".data] = chatCompletionsSfx := by
            decide
          rw [h]
        obtain ⟨ss1, hne1, hpl1, ht1⟩ :=
          segsToPath_split ss hpl _ ["chat".data, "completions".data] (by simp) htn hsp
        rw [ht1]
        by_cases hv1 : hasSuffixL (segsToPath ss1) slashV1 = true
        · right
          refine ⟨ss1, hne1, hpl1, hv1, ?_⟩
          rw [if_pos hv1, pathJoin_plain3 hne1 hpl1 plainSeg_chat plainSeg_completions,
            segsToPath_cc]
        · right
          have hplv : ∀ x ∈ ss1 ++ ["v1".data], PlainSeg x := by
            intro x hx
            rcases List.mem_append.mp hx with hx | hx
            · exact hpl1 x hx
            · rw [List.mem_singleton.mp hx]
              exact plainSeg_v1
          refine ⟨ss1 ++ ["v1".data], by simp, hplv, ?_, ?_⟩
          · rw [segsToPath_concat]
            have h : ('/' :: "v1".data : Str) = slashV1 := by decide
            rw [h]
            exact hasSuffixL_append _ _
          · rw [if_neg hv1, pathJoin_plain2 hne1 hpl1 plainSeg_v1,
              pathJoin_plain3 (by simp) hplv plainSeg_chat plainSeg_completions,
              segsToPath_cc]
    · have hceq : trimSuffixL (segsToPath ss) chatCompletionsSfx = segsToPath ss :=
        trimSuffixL_eq_self_of_not_suffix (by simpa using hsfx)
      rw [hceq]
      by_cases hv1 : hasSuffixL (segsToPath ss) slashV1 = true
      · right
        refine ⟨ss, hne, hpl, hv1, ?_⟩
        rw [if_pos hv1, pathJoin_plain3 hne hpl plainSeg_chat plainSeg_completions,
          segsToPath_cc]
      · right
        have hplv : ∀ x ∈ ss ++ ["v1".data], PlainSeg x := by
          intro x hx
          rcases List.mem_append.mp hx with hx | hx
          · exact hpl x hx
          · rw [List.mem_singleton.mp hx]
            exact plainSeg_v1
        refine ⟨ss ++ ["v1".data], by simp, hplv, ?_, ?_⟩
        · rw [segsToPath_concat]
          have h : ('/' :: "v1".data : Str) = slashV1 := by decide
          rw [h]
          exact hasSuffixL_append _ _
        · rw [if_neg hv1, pathJoin_plain2 hne hpl plainSeg_v1,
            pathJoin_plain3 (by simp) hplv plainSeg_chat plainSeg_completions,
            segsToPath_cc]

/-- Stability: the path pipeline is the identity on a rooted plain path
that already ends in `/v1/chat/completions`. -/
theorem resolvePath_stableA {ss : List Str} (hne : ss ≠ []) (hpl : ∀ s ∈ ss, PlainSeg s)
    (hsf : hasSuffixL (segsToPath ss) slashV1 = true) :
    resolvePath (segsToPath ss ++ chatCompletionsSfx) =
      segsToPath ss ++ chatCompletionsSfx := by
  have hplcc : ∀ s ∈ ss ++ ["chat".data, "completions".data], PlainSeg s := by
    intro s hs
    rcases List.mem_append.mp hs with hs | hs
    · exact hpl s hs
    · rcases List.mem_cons.mp hs with rfl | hs
      · exact plainSeg_chat
      · rw [List.mem_singleton.mp hs]
        exact plainSeg_completions
  obtain ⟨s0, rest, rfl⟩ : ∃ s0 rest, ss = s0 :: rest := by
    cases ss with
    | nil => exact absurd rfl hne
    | cons a b => exact ⟨a, b, rfl⟩
  have hq : segsToPath (s0 :: rest) ++ chatCompletionsSfx =
      '/' :: ((s0 ++ segsToPath rest) ++ chatCompletionsSfx) := by
    rw [segsToPath_head]
    rfl
  rw [resolvePath_eq]
  rw [hq, trimPrefixL_slash, ← hq]
  have hclean : pathClean (segsToPath (s0 :: rest) ++ chatCompletionsSfx) =
      segsToPath (s0 :: rest) ++ chatCompletionsSfx := by
    rw [← segsToPath_cc]
    exact pathClean_segsToPath (by simp) hplcc
  rw [hclean, trimSuffixL_append, if_pos hsf,
    pathJoin_plain3 (by simp) hpl plainSeg_chat plainSeg_completions, segsToPath_cc]

/-- A canonical authority-form string whose rooted path is a fixed point of
the path pipeline is a fixed point of the whole endpoint normalization. -/
theorem resolve_canon_fixed (sch host p1tail frag : Str) (fq : Bool)
    (hsch : sch = [] ∨ WfScheme sch)
    (hauth : parseAuthorityM host = some host)
    (hhne : host ≠ [])
    (hhch : ∀ c ∈ host, hostCh c = true)
    (hslh : '/' ∉ host)
    (hpt : ∀ c ∈ p1tail, pathSafeCh c = true)
    (hfr : ∀ c ∈ frag, fragSafeCh c = true)
    (hfix : resolvePath ('/' :: p1tail) = '/' :: p1tail) :
    ResolveChatCompletionsEndpoint (canonS sch host p1tail frag fq) =
      some (canonS sch host p1tail frag fq) := by
  have hne : canonS sch host p1tail frag fq ≠ [] := by
    unfold canonS
    intro hc
    rcases List.append_eq_nil.mp hc with ⟨hc1, _⟩
    rcases List.append_eq_nil.mp hc1 with ⟨_, hc2⟩
    simp at hc2
  have hparse : parseURL (canonS sch host p1tail frag fq) =
      some ⟨sch, [], host, false, '/' :: p1tail, fq, [], frag⟩ := by
    unfold canonS
    exact parseURL_eval sch host p1tail frag fq hsch hauth hhne hhch hslh hpt hfr
  unfold ResolveChatCompletionsEndpoint
  rw [if_neg hne, hparse]
  show some (urlString ⟨sch, [], host, false, resolvePath ('/' :: p1tail), fq, [], frag⟩) =
    some (canonS sch host p1tail frag fq)
  rw [hfix]
  rw [urlString_hosted ⟨sch, [], host, false, '/' :: p1tail, fq, [], frag⟩ rfl rfl hhne rfl
    p1tail (by simp)]
  rfl

theorem urlString_upd_rooted (u : GoURL) (p1tail : Str) (hopq : u.opq = [])
    (hom : u.omitHost = false) (hh : u.host ≠ []) :
    urlString { u with path := '/' :: p1tail, rawQuery := [] } =
      canonS u.scheme u.host p1tail u.frag u.forceQuery := by
  have h1 := urlString_hosted { u with path := '/' :: p1tail, rawQuery := [] } hopq hom hh rfl
    p1tail (by simp)
  exact h1.trans rfl

theorem urlString_upd_unrooted (u : GoURL) (p1tail : Str) (hopq : u.opq = [])
    (hom : u.omitHost = false) (hh : u.host ≠ []) (hne : p1tail ≠ [])
    (hhead : p1tail.head? ≠ some '/') :
    urlString { u with path := p1tail, rawQuery := [] } =
      canonS u.scheme u.host p1tail u.frag u.forceQuery := by
  have h1 := urlString_hosted { u with path := p1tail, rawQuery := [] } hopq hom hh rfl
    p1tail (by simp [hne, hhead, hh])
  exact h1.trans rfl

/-- C1 counterexample: `ResolveChatCompletionsEndpoint` is not idempotent on
every valid non-empty input on which it succeeds.  The host-less path
`/chat/completions` normalizes to the relative `v1/chat/completions`, and a
second application turns that into `/v1/chat/completions`, a different
string. -/
theorem claim_C1_counterexample :
    "/chat/completions".data ≠ [] ∧
      ResolveChatCompletionsEndpoint "/chat/completions".data =
        some "v1/chat/completions".data ∧
      ResolveChatCompletionsEndpoint "v1/chat/completions".data =
        some "/v1/chat/completions".data ∧
      "v1/chat/completions".data ≠ "/v1/chat/completions".data := by
  decide

/-- C1 (amended): endpoint normalization is idempotent on every input whose
parse has a non-empty host (in particular on every absolute
`http(s)://host...` URL): the first application succeeds with some output
`o`, and applying `ResolveChatCompletionsEndpoint` to `o` returns `o`
itself. -/
theorem claim_C1_amended (s : Str) (u : GoURL) (h : parseURL s = some u)
    (hh : u.host ≠ []) :
    ∃ o, ResolveChatCompletionsEndpoint s = some o ∧
      ResolveChatCompletionsEndpoint o = some o := by
  have hs : s ≠ [] := by
    intro hse
    subst hse
    have hp : parseURL ([] : Str) = some ⟨[], [], [], false, [], false, [], []⟩ := by decide
    rw [hp] at h
    injection h with h
    rw [← h] at hh
    exact hh rfl
  obtain ⟨hopq, hom, hauth, hpsafe, hsch, hfrch, hslh, hhch, hschch⟩ := parseURL_host_inv h hh
  have hres : ResolveChatCompletionsEndpoint s =
      some (urlString { u with path := resolvePath u.path, rawQuery := [] }) := by
    unfold ResolveChatCompletionsEndpoint
    rw [if_neg hs, h]
  rcases resolvePath_cases u.path with hB | ⟨ss, hne, hpl, hsf, hA⟩
  · have hstr : urlString { u with path := resolvePath u.path, rawQuery := [] } =
        canonS u.scheme u.host "v1/chat/completions".data u.frag u.forceQuery := by
      rw [hB]
      exact urlString_upd_unrooted u "v1/chat/completions".data hopq hom hh (by decide)
        (by decide)
    refine ⟨canonS u.scheme u.host "v1/chat/completions".data u.frag u.forceQuery, ?_, ?_⟩
    · rw [hres, hstr]
    · exact resolve_canon_fixed u.scheme u.host "v1/chat/completions".data u.frag
        u.forceQuery hsch hauth hh hhch hslh (by decide) hfrch (by decide)
  · obtain ⟨s0, rest, rfl⟩ : ∃ s0 rest, ss = s0 :: rest := by
      cases ss with
      | nil => exact absurd rfl hne
      | cons a b => exact ⟨a, b, rfl⟩
    have hq2 : segsToPath (s0 :: rest) ++ chatCompletionsSfx =
        '/' :: ((s0 ++ segsToPath rest) ++ chatCompletionsSfx) := by
      rw [segsToPath_head]
      rfl
    have hpath : resolvePath u.path =
        '/' :: ((s0 ++ segsToPath rest) ++ chatCompletionsSfx) := by
      rw [hA, hq2]
    have hfix : resolvePath ('/' :: ((s0 ++ segsToPath rest) ++ chatCompletionsSfx)) =
        '/' :: ((s0 ++ segsToPath rest) ++ chatCompletionsSfx) := by
      rw [← hq2]
      exact resolvePath_stableA (by simp) hpl hsf
    have hptch : ∀ c ∈ (s0 ++ segsToPath rest) ++ chatCompletionsSfx,
        pathSafeCh c = true := by
      have hall : ∀ c ∈ resolvePath u.path, pathSafeCh c = true :=
        resolvePath_chars hpsafe (by decide) (by decide) (by decide) (by decide) (by decide)
          (by decide) (by decide) (by decide) (by decide) (by decide) (by decide) (by decide)
          (by decide) (by decide) (by decide) (by decide)
      intro c hc
      apply hall
      rw [hpath]
      exact List.mem_cons_of_mem _ hc
    have hstr : urlString { u with path := resolvePath u.path, rawQuery := [] } =
        canonS u.scheme u.host ((s0 ++ segsToPath rest) ++ chatCompletionsSfx) u.frag
          u.forceQuery := by
      rw [hpath]
      exact urlString_upd_rooted u _ hopq hom hh
    exact ⟨canonS u.scheme u.host ((s0 ++ segsToPath rest) ++ chatCompletionsSfx) u.frag
        u.forceQuery,
      by rw [hres, hstr],
      resolve_canon_fixed u.scheme u.host _ u.frag u.forceQuery hsch hauth hh hhch hslh
        hptch hfrch hfix⟩

/-- Witness for C1 (amended) at the concrete input
`https://api.openai.com/v1`, whose parse has host `api.openai.com`. -/
theorem claim_C1_amended_witness :
    parseURL "https://api.openai.com/v1".data =
        some ⟨"https".data, [], "api.openai.com".data, false, "/v1".data, false, [], []⟩ ∧
      ∃ o, ResolveChatCompletionsEndpoint "https://api.openai.com/v1".data = some o ∧
        ResolveChatCompletionsEndpoint o = some o :=
  ⟨by decide, claim_C1_amended "https://api.openai.com/v1".data
    ⟨"https".data, [], "api.openai.com".data, false, "/v1".data, false, [], []⟩
    (by decide) (by decide)⟩

theorem cutListDrop_fst_no_sep (sep : Char) : ∀ l : Str, sep ∉ (cutListDrop sep l).1 := by
  intro l
  induction l with
  | nil => simp [cutListDrop]
  | cons c t ih =>
    by_cases hc : c = sep
    · simp [cutListDrop, hc]
    · have hs : (cutListDrop sep (c :: t)).1 = c :: (cutListDrop sep t).1 := by
        simp [cutListDrop, hc]
      rw [hs]
      intro hm
      rcases List.mem_cons.mp hm with he | hm
      · exact hc he.symm
      · exact ih hm

theorem cutListDrop_fst_sub (sep : Char) : ∀ l : Str, ∀ c ∈ (cutListDrop sep l).1, c ∈ l := by
  intro l
  induction l with
  | nil => simp [cutListDrop]
  | cons d t ih =>
    by_cases hd : d = sep
    · simp [cutListDrop, hd]
    · have hs : (cutListDrop sep (d :: t)).1 = d :: (cutListDrop sep t).1 := by
        simp [cutListDrop, hd]
      rw [hs]
      intro c hc
      rcases List.mem_cons.mp hc with rfl | hc
      · simp
      · exact List.mem_cons_of_mem _ (ih c hc)

theorem getSchemeAux_rest_sub (orig : Str) :
    ∀ (l acc sch rest : Str), getSchemeAux orig acc l = some (sch, rest) →
      rest = orig ∨ ∀ c ∈ rest, c ∈ l := by
  intro l
  induction l with
  | nil =>
    intro acc sch rest h
    simp only [getSchemeAux, Option.some.injEq, Prod.mk.injEq] at h
    exact Or.inl h.2.symm
  | cons c t ih =>
    intro acc sch rest h
    simp only [getSchemeAux] at h
    by_cases ha : isAlphaCh c = true
    · rw [if_pos ha] at h
      rcases ih _ _ _ h with h1 | h2
      · exact Or.inl h1
      · exact Or.inr fun x hx => List.mem_cons_of_mem _ (h2 x hx)
    · rw [if_neg ha] at h
      by_cases hd : (isDigitCh c || c = '+' || c = '-' || c = '.') = true
      · rw [if_pos hd] at h
        by_cases he : acc = []
        · rw [if_pos he] at h
          simp only [Option.some.injEq, Prod.mk.injEq] at h
          exact Or.inl h.2.symm
        · rw [if_neg he] at h
          rcases ih _ _ _ h with h1 | h2
          · exact Or.inl h1
          · exact Or.inr fun x hx => List.mem_cons_of_mem _ (h2 x hx)
      · rw [if_neg hd] at h
        by_cases hcol : c = ':'
        · rw [if_pos hcol] at h
          by_cases he : acc = []
          · rw [if_pos he] at h
            exact absurd h (by simp)
          · rw [if_neg he] at h
            simp only [Option.some.injEq, Prod.mk.injEq] at h
            refine Or.inr fun x hx => List.mem_cons_of_mem _ ?_
            rw [h.2]
            exact hx
        · rw [if_neg hcol] at h
          simp only [Option.some.injEq, Prod.mk.injEq] at h
          exact Or.inl h.2.symm

theorem getScheme_rest_sub {s sch rest : Str} (h : getScheme s = some (sch, rest)) :
    ∀ c ∈ rest, c ∈ s := by
  rcases getSchemeAux_rest_sub s s [] sch rest h with h1 | h2
  · intro c hc
    rw [h1] at hc
    exact hc
  · exact h2

theorem querySplit_fst_no_q (r : Str) : '?' ∉ (querySplit r).1 := by
  unfold querySplit
  split
  · rename_i hcond
    rw [Bool.and_eq_true] at hcond
    show '?' ∉ trimSuffixL r ['?']
    intro hm
    have hcont : (trimSuffixL r ['?']).contains '?' = true := List.elem_eq_true_of_mem hm
    have h2 := hcond.2
    rw [hcont] at h2
    exact absurd h2 (by decide)
  · show '?' ∉ (cutListDrop '?' r).1
    exact cutListDrop_fst_no_sep '?' r

theorem querySplit_fst_sub (r : Str) : ∀ c ∈ (querySplit r).1, c ∈ r := by
  unfold querySplit
  split
  · show ∀ c ∈ trimSuffixL r ['?'], c ∈ r
    exact fun c hc => trimSuffixL_sub c hc
  · show ∀ c ∈ (cutListDrop '?' r).1, c ∈ r
    exact cutListDrop_fst_sub '?' r

theorem schemeCh_ne_qh {c : Char} (h : schemeCh c = true) : c ≠ '?' ∧ c ≠ '#' := by
  constructor <;> intro he <;> subst he <;> exact absurd h (by decide)

theorem pathSafeCh_ne_qh {c : Char} (h : pathSafeCh c = true) : c ≠ '?' ∧ c ≠ '#' := by
  constructor <;> intro he <;> subst he <;> exact absurd h (by decide)

theorem fragSafeCh_ne_hash {c : Char} (h : fragSafeCh c = true) : c ≠ '#' := by
  intro he
  subst he
  exact absurd h (by decide)

/-- No `?` and no `#` can appear in the components `parseInner` stores, as
long as the input itself has no `#` (which `url.Parse` guarantees by
cutting the fragment first): `?` is consumed by the query split and `#` by
the fragment split, and the path/host/scheme validations reject both. -/
theorem parseInner_no_qh {t : Str} {u : GoURL} (ht : '#' ∉ t) (h : parseInner t = some u) :
    (∀ c ∈ u.scheme, schemeCh c = true) ∧ ('?' ∉ u.opq ∧ '#' ∉ u.opq) ∧
      (∀ c ∈ u.host, hostCh c = true) ∧ ('?' ∉ u.path ∧ '#' ∉ u.path) ∧ u.frag = [] := by
  unfold parseInner at h
  split at h
  · exact absurd h (by simp)
  split at h
  · injection h with h
    rw [← h]
    exact ⟨by decide, by decide, by decide, by decide, rfl⟩
  split at h
  · exact absurd h (by simp)
  rename_i sch0 rest0 hgs
  simp only [] at h
  have hr1q : '?' ∉ (querySplit rest0).1 := querySplit_fst_no_q rest0
  have hr1h : '#' ∉ (querySplit rest0).1 := by
    intro hm
    exact ht (getScheme_rest_sub hgs _ (querySplit_fst_sub rest0 _ hm))
  have hwsch : ∀ c ∈ sch0.map lowerCh, schemeCh c = true := by
    intro c hc
    rcases getScheme_inv hgs with rfl | hwf
    · simp at hc
    · obtain ⟨y, hy, rfl⟩ := List.mem_map.mp hc
      rw [lowerCh_schemeCh]
      exact hwf.2 y hy
  split at h
  · injection h with h
    rw [← h]
    refine ⟨hwsch, ⟨hr1q, hr1h⟩, ?_, ⟨?_, ?_⟩, rfl⟩
    · intro c hc
      exact nomatch hc
    · intro hm
      exact nomatch hm
    · intro hm
      exact nomatch hm
  split at h
  · exact absurd h (by simp)
  split at h
  · split at h
    · exact absurd h (by simp)
    rename_i host hpa
    unfold setPathM at h
    split at h
    · rename_i hps
      injection h with h
      rw [← h]
      obtain ⟨rfl, _, hch, _⟩ := parseAuthorityM_self hpa
      refine ⟨hwsch, ⟨?_, ?_⟩, hch, ⟨?_, ?_⟩, rfl⟩
      · intro hm
        exact nomatch hm
      · intro hm
        exact nomatch hm
      · intro hm
        exact (pathSafeCh_ne_qh (List.all_eq_true.mp hps _ hm)).1 rfl
      · intro hm
        exact (pathSafeCh_ne_qh (List.all_eq_true.mp hps _ hm)).2 rfl
    · exact absurd h (by simp)
  split at h
  · unfold setPathM at h
    split at h
    · rename_i hps
      injection h with h
      rw [← h]
      refine ⟨hwsch, ⟨?_, ?_⟩, ?_, ⟨?_, ?_⟩, rfl⟩
      · intro hm
        exact nomatch hm
      · intro hm
        exact nomatch hm
      · intro c hc
        exact nomatch hc
      · intro hm
        exact (pathSafeCh_ne_qh (List.all_eq_true.mp hps _ hm)).1 rfl
      · intro hm
        exact (pathSafeCh_ne_qh (List.all_eq_true.mp hps _ hm)).2 rfl
    · exact absurd h (by simp)
  · unfold setPathM at h
    split at h
    · rename_i hps
      injection h with h
      rw [← h]
      refine ⟨hwsch, ⟨?_, ?_⟩, ?_, ⟨?_, ?_⟩, rfl⟩
      · intro hm
        exact nomatch hm
      · intro hm
        exact nomatch hm
      · intro c hc
        exact nomatch hc
      · intro hm
        exact (pathSafeCh_ne_qh (List.all_eq_true.mp hps _ hm)).1 rfl
      · intro hm
        exact (pathSafeCh_ne_qh (List.all_eq_true.mp hps _ hm)).2 rfl
    · exact absurd h (by simp)

/-- The same component invariant for `parseURL`, with the fragment known to
be `#`-free (it is validated against the fragment charset). -/
theorem parseURL_no_qh {raw : Str} {u : GoURL} (h : parseURL raw = some u) :
    (∀ c ∈ u.scheme, schemeCh c = true) ∧ ('?' ∉ u.opq ∧ '#' ∉ u.opq) ∧
      (∀ c ∈ u.host, hostCh c = true) ∧ ('?' ∉ u.path ∧ '#' ∉ u.path) ∧ '#' ∉ u.frag := by
  unfold parseURL at h
  simp only [] at h
  split at h
  · exact absurd h (by simp)
  rename_i u0 hinner
  have ht : '#' ∉ (cutListDrop '#' raw).1 := cutListDrop_fst_no_sep '#' raw
  obtain ⟨h1, h2, h3, h4, h5⟩ := parseInner_no_qh ht hinner
  split at h
  · injection h with h
    rw [← h]
    refine ⟨h1, h2, h3, h4, ?_⟩
    rw [h5]
    exact fun hm => nomatch hm
  · split at h
    · rename_i hfs
      injection h with h
      rw [← h]
      refine ⟨h1, h2, h3, h4, ?_⟩
      intro hm
      exact (fragSafeCh_ne_hash (List.all_eq_true.mp hfs _ hm)) rfl
    · exact absurd h (by simp)

theorem mem_ite_or {P : Prop} (inst : Decidable P) (a b : Str) (c : Char)
    (hc : c ∈ @ite Str P inst a b) : c ∈ a ∨ c ∈ b := by
  split at hc
  · exact Or.inl hc
  · exact Or.inr hc

/-- With an empty `RawQuery`, the printed URL has an empty query component:
everything before the optional bare `?` is `?`-free and everything before
the fragment marker is `#`-free, so cutting at `#` and then at `?` leaves
nothing after the `?`. -/
theorem urlString_query_empty (sch opq0 host pth fr : Str) (om fq : Bool)
    (hsch : ∀ c ∈ sch, schemeCh c = true)
    (hopq : '?' ∉ opq0 ∧ '#' ∉ opq0)
    (hhost : ∀ c ∈ host, hostCh c = true)
    (hpath : '?' ∉ pth ∧ '#' ∉ pth)
    (hfrag : '#' ∉ fr) :
    (cutListDrop '?' (cutListDrop '#'
      (urlString ⟨sch, opq0, host, om, pth, fq, [], fr⟩)).1).2 = [] := by
  have hB : ∀ B qp : Str, '?' ∉ B → '#' ∉ B → (qp = [] ∨ qp = ['?']) →
      (cutListDrop '?' (cutListDrop '#'
        (B ++ qp ++ (if fr ≠ [] then '#' :: fr else []))).1).2 = [] := by
    intro B qp hBq hBh hqp
    have hABh : '#' ∉ B ++ qp := by
      intro hm
      rcases List.mem_append.mp hm with hm | hm
      · exact hBh hm
      · rcases hqp with rfl | rfl
        · simp at hm
        · simp at hm
    by_cases hf : fr = []
    · subst hf
      have h1 : (if ([] : Str) ≠ [] then '#' :: ([] : Str) else []) = [] := by simp
      rw [h1, List.append_nil, cutListDrop_not_mem hABh]
      simp only [pairFst]
      rcases hqp with rfl | rfl
      · rw [List.append_nil, cutListDrop_not_mem hBq]
      · rw [cutListDrop_append [] hBq]
    · rw [if_pos hf, cutListDrop_append fr hABh]
      simp only [pairFst]
      rcases hqp with rfl | rfl
      · rw [List.append_nil, cutListDrop_not_mem hBq]
      · rw [cutListDrop_append [] hBq]
  refine hB _ _ ?_ ?_ ?_
  · intro hm
    rcases List.mem_append.mp hm with hm | hm
    · rcases mem_ite_or _ _ _ _ hm with hm | hm
      · rcases List.mem_append.mp hm with hm | hm
        · exact absurd (hsch _ hm) (by decide)
        · simp at hm
      · simp at hm
    · rcases mem_ite_or _ _ _ _ hm with hm | hm
      · exact hopq.1 hm
      · rcases List.mem_append.mp hm with hm | hm
        · rcases mem_ite_or _ _ _ _ hm with hm | hm
          · rcases mem_ite_or _ _ _ _ hm with hm | hm
            · simp at hm
            · rcases mem_ite_or _ _ _ _ hm with hm | hm
              · rcases List.mem_cons.mp hm with hm | hm
                · exact absurd hm (by decide)
                · rcases List.mem_cons.mp hm with hm | hm
                  · exact absurd hm (by decide)
                  · exact absurd (hhost _ hm) (by decide)
              · simp at hm
          · simp at hm
        · rcases mem_ite_or _ _ _ _ hm with hm | hm
          · rcases List.mem_cons.mp hm with hm | hm
            · exact absurd hm (by decide)
            · rcases List.mem_cons.mp hm with hm | hm
              · exact absurd hm (by decide)
              · rcases mem_ite_or _ _ _ _ hm with hm | hm
                · rcases List.mem_cons.mp hm with hm | hm
                  · exact absurd hm (by decide)
                  · exact hpath.1 hm
                · exact hpath.1 hm
          · rcases mem_ite_or _ _ _ _ hm with hm | hm
            · rcases List.mem_cons.mp hm with hm | hm
              · exact absurd hm (by decide)
              · exact hpath.1 hm
            · exact hpath.1 hm
  · intro hm
    rcases List.mem_append.mp hm with hm | hm
    · rcases mem_ite_or _ _ _ _ hm with hm | hm
      · rcases List.mem_append.mp hm with hm | hm
        · exact absurd (hsch _ hm) (by decide)
        · simp at hm
      · simp at hm
    · rcases mem_ite_or _ _ _ _ hm with hm | hm
      · exact hopq.2 hm
      · rcases List.mem_append.mp hm with hm | hm
        · rcases mem_ite_or _ _ _ _ hm with hm | hm
          · rcases mem_ite_or _ _ _ _ hm with hm | hm
            · simp at hm
            · rcases mem_ite_or _ _ _ _ hm with hm | hm
              · rcases List.mem_cons.mp hm with hm | hm
                · exact absurd hm (by decide)
                · rcases List.mem_cons.mp hm with hm | hm
                  · exact absurd hm (by decide)
                  · exact absurd (hhost _ hm) (by decide)
              · simp at hm
          · simp at hm
        · rcases mem_ite_or _ _ _ _ hm with hm | hm
          · rcases List.mem_cons.mp hm with hm | hm
            · exact absurd hm (by decide)
            · rcases List.mem_cons.mp hm with hm | hm
              · exact absurd hm (by decide)
              · rcases mem_ite_or _ _ _ _ hm with hm | hm
                · rcases List.mem_cons.mp hm with hm | hm
                  · exact absurd hm (by decide)
                  · exact hpath.2 hm
                · exact hpath.2 hm
          · rcases mem_ite_or _ _ _ _ hm with hm | hm
            · rcases List.mem_cons.mp hm with hm | hm
              · exact absurd hm (by decide)
              · exact hpath.2 hm
            · exact hpath.2 hm
  · cases fq with
    | true =>
      right
      simp
    | false =>
      left
      simp

/-- C6: the five endpoint spellings `https://api.openai.com`, `.../`,
`.../v1`, `.../v1/` and `.../v1/chat/completions` all normalize to
`https://api.openai.com/v1/chat/completions` without error; the empty
string maps to the empty string without error; and the query component of
every successful output is empty (any query string on the input is
stripped). -/
theorem claim_C6_normalization :
    (ResolveChatCompletionsEndpoint "https://api.openai.com".data =
        some "https://api.openai.com/v1/chat/completions".data) ∧
      (ResolveChatCompletionsEndpoint "https://api.openai.com/".data =
        some "https://api.openai.com/v1/chat/completions".data) ∧
      (ResolveChatCompletionsEndpoint "https://api.openai.com/v1".data =
        some "https://api.openai.com/v1/chat/completions".data) ∧
      (ResolveChatCompletionsEndpoint "https://api.openai.com/v1/".data =
        some "https://api.openai.com/v1/chat/completions".data) ∧
      (ResolveChatCompletionsEndpoint "https://api.openai.com/v1/chat/completions".data =
        some "https://api.openai.com/v1/chat/completions".data) ∧
      ResolveChatCompletionsEndpoint [] = some [] ∧
      ∀ (s o : Str), ResolveChatCompletionsEndpoint s = some o →
        (cutListDrop '?' (cutListDrop '#' o).1).2 = [] := by
  refine ⟨by decide, by decide, by decide, by decide, by decide, by decide, ?_⟩
  intro s o h
  unfold ResolveChatCompletionsEndpoint at h
  split at h
  · injection h with h
    rw [← h]
    rfl
  · split at h
    · exact absurd h (by simp)
    · rename_i u hu
      injection h with h
      rw [← h]
      obtain ⟨h1, h2, h3, h4, h5⟩ := parseURL_no_qh hu
      obtain ⟨sch, opq0, host, om, pth, fq, rq, fr⟩ := u
      have hresolved : ∀ c ∈ resolvePath pth,
          (decide (c ≠ '?') && decide (c ≠ '#')) = true := by
        refine @resolvePath_chars (fun c => decide (c ≠ '?') && decide (c ≠ '#')) pth ?_
          (by decide) (by decide) (by decide) (by decide) (by decide) (by decide) (by decide)
          (by decide) (by decide) (by decide) (by decide) (by decide) (by decide) (by decide)
          (by decide) (by decide)
        intro c hc
        rw [Bool.and_eq_true, decide_eq_true_eq, decide_eq_true_eq]
        exact ⟨fun he => h4.1 (he ▸ hc), fun he => h4.2 (he ▸ hc)⟩
      refine urlString_query_empty sch opq0 host (resolvePath pth) fr om fq h1 h2 h3
        ⟨?_, ?_⟩ h5
      · intro hm
        have hq := hresolved _ hm
        rw [Bool.and_eq_true, decide_eq_true_eq, decide_eq_true_eq] at hq
        exact hq.1 rfl
      · intro hm
        have hq := hresolved _ hm
        rw [Bool.and_eq_true, decide_eq_true_eq, decide_eq_true_eq] at hq
        exact hq.2 rfl

/-- Witness for C6's universally quantified query-stripping conjunct, at a
concrete input carrying a query string. -/
theorem claim_C6_normalization_witness :
    (cutListDrop '?' (cutListDrop '#'
      "https://api.openai.com/v1/chat/completions".data).1).2 = [] :=
  claim_C6_normalization.2.2.2.2.2.2 "https://api.openai.com/v1?key=abc".data
    "https://api.openai.com/v1/chat/completions".data (by decide)
